import Mathlib

/-
Verification of `src/common/resource_quantities.cpp`: the `ResourceQuantities`
and `ResourceLimits` value types of the mesos resource accounting core.

Both types are sorted association lists from resource names (strings, ordered
lexicographically) to scalar values.  Scalars are modelled as rationals, per
the specification ("a non-negative rational/integer").  The helpers
`strings::tokenize`, `strings::trim`, `values::parse` and the scalar rendering
live outside the given sources; they are modelled from the specification and
marked as such in their doc comments.  Everything else is translated directly
from the C++ source.
-/

namespace Mesos

abbrev Scalar := Rat

abbrev Entry := String × Scalar

/-! ## External string helpers, modelled from the spec -/

/-- Raw splitter on a delimiter character, keeping empty segments.
Building block for the tokenizer below. -/
def splitOnChar (c : Char) : List Char → List (List Char)
  | [] => [[]]
  | a :: rest =>
    match splitOnChar c rest with
    | [] => [[]]
    | t :: ts => if a = c then [] :: t :: ts else (a :: t) :: ts

/-- Modelled from the spec: `strings::tokenize` (stout, not under `src/`)
splits the text on a delimiter character and keeps only the non-empty tokens
("each non-empty token"; inputs made only of separators yield no tokens). -/
def tokenizeChars (c : Char) (cs : List Char) : List (List Char) :=
  (splitOnChar c cs).filter (fun t => !t.isEmpty)

/-- Modelled from the spec: `strings::trim` (stout, not under `src/`) removes
the surrounding whitespace of a text; internal whitespace is preserved. -/
def trimChars (cs : List Char) : List Char :=
  ((cs.dropWhile Char.isWhitespace).reverse.dropWhile Char.isWhitespace).reverse

/-- Value of a list of decimal digit characters, most significant first. -/
def digitsVal (cs : List Char) : Nat :=
  cs.foldl (fun n c => 10 * n + (c.toNat - 48)) 0

def allDigits (cs : List Char) : Bool :=
  cs.all (fun c => c.isDigit)

/-- Modelled from the spec: the numeral part of the external scalar grammar, a
decimal numeral with an optional fractional part ("decimal, non-negative"). -/
def parseUnsignedDecimal (cs : List Char) : Option Rat :=
  match splitOnChar '.' cs with
  | [ip] =>
    if ip ≠ [] ∧ allDigits ip = true then some ((digitsVal ip : Nat) : Rat) else none
  | [ip, fp] =>
    if ip ≠ [] ∧ fp ≠ [] ∧ allDigits ip = true ∧ allDigits fp = true then
      some ((digitsVal ip : Rat) + (digitsVal fp : Rat) / (10 : Rat) ^ fp.length)
    else none
  | _ => none

/-- Modelled from the spec: `values::parse` (not under `src/`), restricted to
the scalar shape: an optionally minus-signed decimal numeral, with the
surrounding whitespace trimmed ("we trim the whitespace ... in the number").
Other value shapes are out of scope and are folded into the error case, so the
non-scalar branch of `fromString` never fires in this model. -/
def valuesParse (cs : List Char) : Except String Rat :=
  match trimChars cs with
  | [] => .error "empty quantity"
  | c :: rest =>
    if c = '-' then
      match parseUnsignedDecimal rest with
      | some q => .ok (-q)
      | none => .error "not a number"
    else
      match parseUnsignedDecimal (c :: rest) with
      | some q => .ok q
      | none => .error "not a number"

/-! ## Entry-list operations, translated from the C++ source -/

/-- `ResourceQuantities::get`: linear scan with early exit on the sorted list;
absent names read as zero. -/
def getQList : List Entry → String → Scalar
  | [], _ => 0
  | (m, w) :: rest, name =>
    if m = name then w else if name < m then 0 else getQList rest name

/-- `ResourceLimits::get`: linear scan with early exit on the sorted list;
absent names read as `none` (unbounded). -/
def getLList : List Entry → String → Option Scalar
  | [], _ => none
  | (m, w) :: rest, name =>
    if m = name then some w else if name < m then none else getLList rest name

/-- `ResourceQuantities::add`: locate the insertion point by linear scan and
either accumulate into an existing entry or insert a new one. -/
def addEntry : List Entry → String → Scalar → List Entry
  | [], name, v => [(name, v)]
  | (m, w) :: rest, name, v =>
    if m = name then (m, w + v) :: rest
    else if name < m then (name, v) :: (m, w) :: rest
    else (m, w) :: addEntry rest name v

/-- `ResourceLimits::set`: insert-or-overwrite at the sorted position. -/
def setEntry : List Entry → String → Scalar → List Entry
  | [], name, v => [(name, v)]
  | (m, w) :: rest, name, v =>
    if m = name then (m, v) :: rest
    else if name < m then (name, v) :: (m, w) :: rest
    else (m, w) :: setEntry rest name v

/-- `ResourceQuantities::operator+=`: two-pointer merge of the sorted lists,
summing values of matching names. -/
def addQQlist (ls rs : List Entry) : List Entry :=
  match ls, rs with
  | ls, [] => ls
  | [], rs => rs
  | (ln, lv) :: ls', (rn, rv) :: rs' =>
    if ln < rn then (ln, lv) :: addQQlist ls' ((rn, rv) :: rs')
    else if rn < ln then (rn, rv) :: addQQlist ((ln, lv) :: ls') rs'
    else (ln, lv + rv) :: addQQlist ls' rs'
termination_by ls.length + rs.length
decreasing_by all_goals (simp; try omega)

/-- `ResourceQuantities::operator-=`: two-pointer walk; matching entries are
dropped when the left value does not exceed the right one, diminished
otherwise; right-only names are skipped. -/
def subQQlist (ls rs : List Entry) : List Entry :=
  match ls, rs with
  | ls, [] => ls
  | [], _ => []
  | (ln, lv) :: ls', (rn, rv) :: rs' =>
    if ln < rn then (ln, lv) :: subQQlist ls' ((rn, rv) :: rs')
    else if rn < ln then subQQlist ((ln, lv) :: ls') rs'
    else if lv ≤ rv then subQQlist ls' rs'
    else (ln, lv - rv) :: subQQlist ls' rs'
termination_by ls.length + rs.length
decreasing_by all_goals (simp; try omega)

/-- `ResourceQuantities::contains`: two-pointer dominance walk. -/
def containsQQlist (ls rs : List Entry) : Bool :=
  match ls, rs with
  | _, [] => true
  | [], _ :: _ => false
  | (ln, lv) :: ls', (rn, rv) :: rs' =>
    if ln < rn then containsQQlist ls' ((rn, rv) :: rs')
    else if rn < ln then false
    else if lv < rv then false
    else containsQQlist ls' rs'
termination_by ls.length + rs.length
decreasing_by all_goals (simp; try omega)

/-- `ResourceLimits::contains(const ResourceLimits&)`: two-pointer walk with
the pinned asymmetric absence policy. -/
def containsLLlist (ls rs : List Entry) : Bool :=
  match ls, rs with
  | [], _ => true
  | _ :: _, [] => false
  | (ln, lv) :: ls', (rn, rv) :: rs' =>
    if ln < rn then false
    else if rn < ln then containsLLlist ((ln, lv) :: ls') rs'
    else if lv < rv then false
    else containsLLlist ls' rs'
termination_by ls.length + rs.length
decreasing_by all_goals (simp; try omega)

/-! ## The two value types -/

structure ResourceQuantities where
  quantities : List Entry
deriving DecidableEq

structure ResourceLimits where
  limits : List Entry
deriving DecidableEq

def ResourceQuantities.get (rq : ResourceQuantities) (name : String) : Scalar :=
  getQList rq.quantities name

def ResourceQuantities.add
    (rq : ResourceQuantities) (name : String) (scalar : Scalar) : ResourceQuantities :=
  if scalar = 0 then rq else ⟨addEntry rq.quantities name scalar⟩

def ResourceQuantities.contains (rq other : ResourceQuantities) : Bool :=
  containsQQlist rq.quantities other.quantities

instance : Add ResourceQuantities :=
  ⟨fun a b => ⟨addQQlist a.quantities b.quantities⟩⟩

instance : Sub ResourceQuantities :=
  ⟨fun a b => ⟨subQQlist a.quantities b.quantities⟩⟩

def ResourceLimits.get (rl : ResourceLimits) (name : String) : Option Scalar :=
  getLList rl.limits name

def ResourceLimits.set
    (rl : ResourceLimits) (name : String) (scalar : Scalar) : ResourceLimits :=
  ⟨setEntry rl.limits name scalar⟩

def ResourceLimits.containsLimits (rl other : ResourceLimits) : Bool :=
  containsLLlist rl.limits other.limits

/-- `ResourceLimits::contains(const ResourceQuantities&)`: every quantity entry
with a configured finite limit must stay within it. -/
def ResourceLimits.containsQuantities
    (rl : ResourceLimits) (quantities : ResourceQuantities) : Bool :=
  quantities.quantities.all fun e =>
    match rl.get e.1 with
    | some limit => !(limit < e.2)
    | none => true

/-! ## Parsing, translated from the C++ source -/

inductive ParseError where
  | malformedToken (token : String)
  | scalarParseFailure (value : String) (msg : String)
  | nonScalarValue (value : String)
  | negativeValue (value : String)
  | duplicateName (value : String)
deriving DecidableEq

deriving instance DecidableEq for Except

/-- One loop iteration of `ResourceQuantities::fromString`. -/
def qStep (result : ResourceQuantities) (token : List Char) :
    Except ParseError ResourceQuantities :=
  match tokenizeChars ':' token with
  | [name, valueStr] =>
    match valuesParse valueStr with
    | .error e => .error (.scalarParseFailure ⟨valueStr⟩ e)
    | .ok v =>
      if v < 0 then .error (.negativeValue ⟨valueStr⟩)
      else if 0 < v then .ok (result.add ⟨trimChars name⟩ v)
      else .ok result
  | _ => .error (.malformedToken ⟨token⟩)

/-- The token loop shared by both `fromString` functions: process the tokens
in order, stopping at the first error (the C++ `return Error(...)`). -/
def parseTokens {α : Type} (step : α → List Char → Except ParseError α) :
    α → List (List Char) → Except ParseError α
  | acc, [] => .ok acc
  | acc, t :: ts =>
    match step acc t with
    | .ok next => parseTokens step next ts
    | .error e => .error e

def ResourceQuantities.fromString (text : String) :
    Except ParseError ResourceQuantities :=
  parseTokens qStep ⟨[]⟩ (tokenizeChars ';' text.data)

/-- One loop iteration of `ResourceLimits::fromString`. -/
def lStep (result : ResourceLimits) (token : List Char) :
    Except ParseError ResourceLimits :=
  match tokenizeChars ':' token with
  | [name, valueStr] =>
    match valuesParse valueStr with
    | .error e => .error (.scalarParseFailure ⟨valueStr⟩ e)
    | .ok v =>
      if v < 0 then .error (.negativeValue ⟨valueStr⟩)
      else
        if (getLList result.limits ⟨trimChars name⟩).isSome then
          .error (.duplicateName ⟨valueStr⟩)
        else .ok (result.set ⟨trimChars name⟩ v)
  | _ => .error (.malformedToken ⟨token⟩)

def ResourceLimits.fromString (text : String) :
    Except ParseError ResourceLimits :=
  parseTokens lStep ⟨[]⟩ (tokenizeChars ';' text.data)

/-! ## Rendering -/

/-- Decimal digit characters of a natural number, most significant first. -/
def natChars (n : Nat) : List Char :=
  if n = 0 then ['0'] else (Nat.digits 10 n).reverse.map Nat.digitChar

/-- Modelled from the spec: the scalar rendering (the stream operator of
`Value::Scalar`, not under `src/`) prints a non-negative rational whose
denominator divides a power of ten as a decimal numeral; we print `den - 1`
fractional digits, and none for integers. -/
def renderScalarChars (q : Rat) : List Char :=
  let k := q.den - 1
  let m := q.num.toNat * 10 ^ k / q.den
  if k = 0 then natChars m
  else
    natChars (m / 10 ^ k) ++
      '.' :: (List.replicate (k - (natChars (m % 10 ^ k)).length) '0' ++
        natChars (m % 10 ^ k))

def renderEntryChars (e : Entry) : List Char :=
  e.1.data ++ ':' :: renderScalarChars e.2

/-- The printing loop of `operator<<(ostream&, const ResourceQuantities&)`:
entries joined by "; ". -/
def renderEntriesChars : List Entry → List Char
  | [] => []
  | [e] => renderEntryChars e
  | e :: rest => renderEntryChars e ++ ';' :: ' ' :: renderEntriesChars rest

/-- `operator<<(ostream&, const ResourceQuantities&)`: an empty set renders as
braces, otherwise the entries are joined by "; ". -/
def ResourceQuantities.toString (rq : ResourceQuantities) : String :=
  if rq.quantities.isEmpty then "\x7b\x7d" else ⟨renderEntriesChars rq.quantities⟩

/-- Modelled from the spec: `LimitSet` rendering follows the same joining rule
("Rendering: name:value entries joined by ; in ascending name order; an empty
set renders as braces"); no stream operator for `ResourceLimits` is under
`src/`. -/
def ResourceLimits.toString (rl : ResourceLimits) : String :=
  if rl.limits.isEmpty then "\x7b\x7d" else ⟨renderEntriesChars rl.limits⟩

/-! ## Representation invariants -/

/-- Entries strictly sorted ascending by name; strictness rules out duplicate
names. -/
abbrev SortedNames (l : List Entry) : Prop :=
  List.Pairwise (fun a b : Entry => a.1 < b.1) l

/-- Every stored value is strictly positive (QuantitySet invariant). -/
abbrev AllPos (l : List Entry) : Prop := ∀ e ∈ l, (0 : Scalar) < e.2

/-- Every stored value is non-negative (LimitSet parsing invariant). -/
abbrev AllNonneg (l : List Entry) : Prop := ∀ e ∈ l, (0 : Scalar) ≤ e.2

/-! ## Lookup lemmas -/

theorem getL_eq_some_iff {ls : List Entry} {n : String} {b : Scalar}
    (h : SortedNames ls) : getLList ls n = some b ↔ (n, b) ∈ ls := by
  induction ls with
  | nil => simp [getLList]
  | cons e rest ih =>
    obtain ⟨m, w⟩ := e
    obtain ⟨h1, h2⟩ := List.pairwise_cons.1 h
    by_cases hm : m = n
    · subst hm
      have hrest : (m, b) ∉ rest := fun hmem => absurd rfl (ne_of_gt (h1 (m, b) hmem))
      rw [getLList, if_pos rfl]
      constructor
      · intro hsome
        obtain rfl : w = b := Option.some.inj hsome
        exact List.mem_cons_self _ _
      · intro hmem
        rcases List.mem_cons.1 hmem with heq | hmem'
        · obtain ⟨-, rfl⟩ := Prod.ext_iff.1 heq
          rfl
        · exact absurd hmem' hrest
    · by_cases hlt : n < m
      · have hrest : (n, b) ∉ rest := fun hmem =>
          absurd (lt_trans hlt (h1 _ hmem)) (lt_irrefl n)
        simp only [getLList, if_neg hm, if_pos hlt, List.mem_cons, Prod.mk.injEq]
        constructor
        · rintro ⟨⟩
        · rintro (⟨rfl, -⟩ | hmem)
          · exact absurd rfl hm
          · exact absurd hmem hrest
      · simp only [getLList, if_neg hm, if_neg hlt, List.mem_cons, Prod.mk.injEq]
        rw [ih h2]
        constructor
        · exact Or.inr
        · rintro (⟨rfl, -⟩ | hmem)
          · exact absurd rfl hm
          · exact hmem

theorem getL_eq_none_of_forall_lt {ls : List Entry} {n : String}
    (h : ∀ e ∈ ls, e.1 < n) : getLList ls n = none := by
  induction ls with
  | nil => rfl
  | cons e rest ih =>
    obtain ⟨m, w⟩ := e
    have hm : m < n := h _ (List.mem_cons_self _ _)
    simp only [getLList, if_neg (ne_of_lt hm), if_neg (asymm hm)]
    exact ih fun e he => h _ (List.mem_cons_of_mem _ he)

theorem getQ_eq_of_mem {ls : List Entry} {n : String} {v : Scalar}
    (h : SortedNames ls) (hmem : (n, v) ∈ ls) : getQList ls n = v := by
  induction ls with
  | nil => cases hmem
  | cons e rest ih =>
    obtain ⟨m, w⟩ := e
    obtain ⟨h1, h2⟩ := List.pairwise_cons.1 h
    rcases List.mem_cons.1 hmem with heq | hmem'
    · obtain ⟨h3, h4⟩ := Prod.ext_iff.1 heq
      subst h3
      subst h4
      simp [getQList]
    · have hlt : m < n := h1 _ hmem'
      simp only [getQList, if_neg (ne_of_lt hlt), if_neg (asymm hlt)]
      exact ih h2 hmem'

theorem getQ_eq_zero_of_forall_lt {ls : List Entry} {n : String}
    (h : ∀ e ∈ ls, n < e.1) : getQList ls n = 0 := by
  cases ls with
  | nil => rfl
  | cons e rest =>
    obtain ⟨m, w⟩ := e
    have hm : n < m := h _ (List.mem_cons_self _ _)
    rw [getQList, if_neg (ne_of_gt hm), if_pos hm]

theorem mem_of_getQ_ne_zero {ls : List Entry} {n : String}
    (h : getQList ls n ≠ 0) : (n, getQList ls n) ∈ ls := by
  induction ls with
  | nil => exact absurd rfl h
  | cons e rest ih =>
    obtain ⟨m, w⟩ := e
    by_cases hm : m = n
    · subst hm
      simp [getQList]
    · by_cases hlt : n < m
      · rw [getQList, if_neg hm, if_pos hlt] at h ⊢
        exact absurd rfl h
      · rw [getQList, if_neg hm, if_neg hlt] at h ⊢
        exact List.mem_cons_of_mem _ (ih h)

/-! ## Insertion lemmas -/

theorem mem_addEntry {ls : List Entry} {n : String} {v : Scalar} :
    ∀ e ∈ addEntry ls n v, e ∈ ls ∨ e.1 = n := by
  induction ls with
  | nil =>
    intro e he
    rcases List.mem_singleton.1 he with rfl
    exact Or.inr rfl
  | cons f rest ih =>
    obtain ⟨m, w⟩ := f
    intro e he
    by_cases hm : m = n
    · rw [addEntry, if_pos hm] at he
      rcases List.mem_cons.1 he with rfl | hmem
      · exact Or.inr hm
      · exact Or.inl (List.mem_cons_of_mem _ hmem)
    · by_cases hlt : n < m
      · rw [addEntry, if_neg hm, if_pos hlt] at he
        rcases List.mem_cons.1 he with rfl | hmem
        · exact Or.inr rfl
        · exact Or.inl hmem
      · rw [addEntry, if_neg hm, if_neg hlt] at he
        rcases List.mem_cons.1 he with rfl | hmem
        · exact Or.inl (List.mem_cons_self _ _)
        · rcases ih _ hmem with h | h
          · exact Or.inl (List.mem_cons_of_mem _ h)
          · exact Or.inr h

theorem addEntry_sorted {ls : List Entry} {n : String} {v : Scalar}
    (h : SortedNames ls) : SortedNames (addEntry ls n v) := by
  induction ls with
  | nil => simp [addEntry]
  | cons f rest ih =>
    obtain ⟨m, w⟩ := f
    obtain ⟨h1, h2⟩ := List.pairwise_cons.1 h
    by_cases hm : m = n
    · rw [addEntry, if_pos hm]
      exact List.pairwise_cons.2 ⟨h1, h2⟩
    · by_cases hlt : n < m
      · rw [addEntry, if_neg hm, if_pos hlt]
        refine List.pairwise_cons.2 ⟨?_, List.pairwise_cons.2 ⟨h1, h2⟩⟩
        intro e he
        rcases List.mem_cons.1 he with rfl | hmem
        · exact hlt
        · exact lt_trans hlt (h1 _ hmem)
      · have hmn : m < n := lt_of_le_of_ne (not_lt.1 hlt) hm
        rw [addEntry, if_neg hm, if_neg hlt]
        refine List.pairwise_cons.2 ⟨?_, ih h2⟩
        intro e he
        rcases mem_addEntry _ he with hmem | heq
        · exact h1 _ hmem
        · exact heq ▸ hmn

theorem addEntry_pos {ls : List Entry} {n : String} {v : Scalar}
    (h : AllPos ls) (hv : 0 < v) : AllPos (addEntry ls n v) := by
  induction ls with
  | nil =>
    intro e he
    rcases List.mem_singleton.1 he with rfl
    exact hv
  | cons f rest ih =>
    obtain ⟨m, w⟩ := f
    have hw : (0 : Scalar) < w := h _ (List.mem_cons_self _ _)
    have hrest : AllPos rest := fun e he => h _ (List.mem_cons_of_mem _ he)
    intro e he
    by_cases hm : m = n
    · rw [addEntry, if_pos hm] at he
      rcases List.mem_cons.1 he with rfl | hmem
      · exact add_pos hw hv
      · exact hrest _ hmem
    · by_cases hlt : n < m
      · rw [addEntry, if_neg hm, if_pos hlt] at he
        rcases List.mem_cons.1 he with rfl | hmem
        · exact hv
        · exact h _ hmem
      · rw [addEntry, if_neg hm, if_neg hlt] at he
        rcases List.mem_cons.1 he with rfl | hmem
        · exact hw
        · exact ih hrest _ hmem

theorem addEntry_append {ls : List Entry} {n : String} {v : Scalar}
    (h : ∀ e ∈ ls, e.1 < n) : addEntry ls n v = ls ++ [(n, v)] := by
  induction ls with
  | nil => rfl
  | cons f rest ih =>
    obtain ⟨m, w⟩ := f
    have hm : m < n := h _ (List.mem_cons_self _ _)
    rw [addEntry, if_neg (ne_of_lt hm), if_neg (asymm hm),
      ih fun e he => h _ (List.mem_cons_of_mem _ he), List.cons_append]

theorem mem_setEntry {ls : List Entry} {n : String} {v : Scalar} :
    ∀ e ∈ setEntry ls n v, e ∈ ls ∨ e.1 = n := by
  induction ls with
  | nil =>
    intro e he
    rcases List.mem_singleton.1 he with rfl
    exact Or.inr rfl
  | cons f rest ih =>
    obtain ⟨m, w⟩ := f
    intro e he
    by_cases hm : m = n
    · rw [setEntry, if_pos hm] at he
      rcases List.mem_cons.1 he with rfl | hmem
      · exact Or.inr hm
      · exact Or.inl (List.mem_cons_of_mem _ hmem)
    · by_cases hlt : n < m
      · rw [setEntry, if_neg hm, if_pos hlt] at he
        rcases List.mem_cons.1 he with rfl | hmem
        · exact Or.inr rfl
        · exact Or.inl hmem
      · rw [setEntry, if_neg hm, if_neg hlt] at he
        rcases List.mem_cons.1 he with rfl | hmem
        · exact Or.inl (List.mem_cons_self _ _)
        · rcases ih _ hmem with h | h
          · exact Or.inl (List.mem_cons_of_mem _ h)
          · exact Or.inr h

theorem setEntry_sorted {ls : List Entry} {n : String} {v : Scalar}
    (h : SortedNames ls) : SortedNames (setEntry ls n v) := by
  induction ls with
  | nil => simp [setEntry]
  | cons f rest ih =>
    obtain ⟨m, w⟩ := f
    obtain ⟨h1, h2⟩ := List.pairwise_cons.1 h
    by_cases hm : m = n
    · rw [setEntry, if_pos hm]
      exact List.pairwise_cons.2 ⟨h1, h2⟩
    · by_cases hlt : n < m
      · rw [setEntry, if_neg hm, if_pos hlt]
        refine List.pairwise_cons.2 ⟨?_, List.pairwise_cons.2 ⟨h1, h2⟩⟩
        intro e he
        rcases List.mem_cons.1 he with rfl | hmem
        · exact hlt
        · exact lt_trans hlt (h1 _ hmem)
      · have hmn : m < n := lt_of_le_of_ne (not_lt.1 hlt) hm
        rw [setEntry, if_neg hm, if_neg hlt]
        refine List.pairwise_cons.2 ⟨?_, ih h2⟩
        intro e he
        rcases mem_setEntry _ he with hmem | heq
        · exact h1 _ hmem
        · exact heq ▸ hmn

theorem setEntry_nonneg {ls : List Entry} {n : String} {v : Scalar}
    (h : AllNonneg ls) (hv : 0 ≤ v) : AllNonneg (setEntry ls n v) := by
  induction ls with
  | nil =>
    intro e he
    rcases List.mem_singleton.1 he with rfl
    exact hv
  | cons f rest ih =>
    obtain ⟨m, w⟩ := f
    have hw : (0 : Scalar) ≤ w := h _ (List.mem_cons_self _ _)
    have hrest : AllNonneg rest := fun e he => h _ (List.mem_cons_of_mem _ he)
    intro e he
    by_cases hm : m = n
    · rw [setEntry, if_pos hm] at he
      rcases List.mem_cons.1 he with rfl | hmem
      · exact hv
      · exact hrest _ hmem
    · by_cases hlt : n < m
      · rw [setEntry, if_neg hm, if_pos hlt] at he
        rcases List.mem_cons.1 he with rfl | hmem
        · exact hv
        · exact h _ hmem
      · rw [setEntry, if_neg hm, if_neg hlt] at he
        rcases List.mem_cons.1 he with rfl | hmem
        · exact hw
        · exact ih hrest _ hmem

theorem setEntry_append {ls : List Entry} {n : String} {v : Scalar}
    (h : ∀ e ∈ ls, e.1 < n) : setEntry ls n v = ls ++ [(n, v)] := by
  induction ls with
  | nil => rfl
  | cons f rest ih =>
    obtain ⟨m, w⟩ := f
    have hm : m < n := h _ (List.mem_cons_self _ _)
    rw [setEntry, if_neg (ne_of_lt hm), if_neg (asymm hm),
      ih fun e he => h _ (List.mem_cons_of_mem _ he), List.cons_append]

/-! ## Dominance walk characterizations -/

theorem containsQQlist_iff {ls rs : List Entry} (hl : SortedNames ls)
    (hr : SortedNames rs) :
    containsQQlist ls rs = true ↔ ∀ e ∈ rs, ∃ w, (e.1, w) ∈ ls ∧ e.2 ≤ w := by
  induction ls, rs using containsQQlist.induct with
  | case1 ls => simp [containsQQlist]
  | case2 e rs' =>
    obtain ⟨rn, rv⟩ := e
    simp only [containsQQlist, Bool.false_eq_true, false_iff]
    intro hall
    obtain ⟨w, hw, -⟩ := hall (rn, rv) (List.mem_cons_self _ _)
    exact List.not_mem_nil _ hw
  | case3 ln lv ls' rn rv rs' hlt ih =>
    obtain ⟨hl1, hl2⟩ := List.pairwise_cons.1 hl
    have hname : ∀ e ∈ (rn, rv) :: rs', ln < e.1 := by
      intro e he
      rcases List.mem_cons.1 he with rfl | hmem
      · exact hlt
      · exact lt_trans hlt ((List.pairwise_cons.1 hr).1 _ hmem)
    simp only [containsQQlist, if_pos hlt]
    rw [ih hl2 hr]
    constructor
    · intro hall e he
      obtain ⟨w, hw, hle⟩ := hall e he
      exact ⟨w, List.mem_cons_of_mem _ hw, hle⟩
    · intro hall e he
      obtain ⟨w, hw, hle⟩ := hall e he
      rcases List.mem_cons.1 hw with heq | hmem
      · have : e.1 = ln := (Prod.ext_iff.1 heq).1
        exact absurd (hname e he) (this ▸ lt_irrefl _)
      · exact ⟨w, hmem, hle⟩
  | case4 ln lv ls' rn rv rs' h1 h2 =>
    have hname : ∀ e ∈ (ln, lv) :: ls', rn < e.1 := by
      intro e he
      rcases List.mem_cons.1 he with rfl | hmem
      · exact h2
      · exact lt_trans h2 ((List.pairwise_cons.1 hl).1 _ hmem)
    simp only [containsQQlist, if_neg h1, if_pos h2, Bool.false_eq_true, false_iff]
    intro hall
    obtain ⟨w, hw, -⟩ := hall (rn, rv) (List.mem_cons_self _ _)
    exact absurd (hname _ hw) (lt_irrefl _)
  | case5 ln lv ls' rn rv rs' h1 h2 h3 =>
    obtain rfl : rn = ln := le_antisymm (not_lt.1 h1) (not_lt.1 h2)
    simp only [containsQQlist, if_neg h1, if_neg h2, if_pos h3, Bool.false_eq_true,
      false_iff]
    intro hall
    obtain ⟨w, hw, hle⟩ := hall (rn, rv) (List.mem_cons_self _ _)
    rcases List.mem_cons.1 hw with heq | hmem
    · obtain ⟨-, rfl⟩ := Prod.ext_iff.1 heq
      exact absurd h3 (not_lt.2 hle)
    · exact absurd ((List.pairwise_cons.1 hl).1 _ hmem) (lt_irrefl _)
  | case6 ln lv ls' rn rv rs' h1 h2 h3 ih =>
    obtain rfl : rn = ln := le_antisymm (not_lt.1 h1) (not_lt.1 h2)
    obtain ⟨hl1, hl2⟩ := List.pairwise_cons.1 hl
    obtain ⟨hr1, hr2⟩ := List.pairwise_cons.1 hr
    simp only [containsQQlist, if_neg h1, if_neg h2, if_neg h3]
    rw [ih hl2 hr2]
    constructor
    · intro hrec e he
      rcases List.mem_cons.1 he with rfl | hmem
      · exact ⟨lv, List.mem_cons_self _ _, not_lt.1 h3⟩
      · obtain ⟨w, hw, hle⟩ := hrec e hmem
        exact ⟨w, List.mem_cons_of_mem _ hw, hle⟩
    · intro hall e he
      obtain ⟨w, hw, hle⟩ := hall e (List.mem_cons_of_mem _ he)
      rcases List.mem_cons.1 hw with heq | hmem
      · have : e.1 = rn := (Prod.ext_iff.1 heq).1
        exact absurd (hr1 _ he) (this ▸ lt_irrefl _)
      · exact ⟨w, hmem, hle⟩

theorem containsLLlist_iff {ls rs : List Entry} (hl : SortedNames ls)
    (hr : SortedNames rs) :
    containsLLlist ls rs = true ↔ ∀ e ∈ ls, ∃ c, (e.1, c) ∈ rs ∧ c ≤ e.2 := by
  induction ls, rs using containsLLlist.induct with
  | case1 rs => simp [containsLLlist]
  | case2 e ls' =>
    obtain ⟨ln, lv⟩ := e
    simp only [containsLLlist, Bool.false_eq_true, false_iff]
    intro hall
    obtain ⟨c, hc, -⟩ := hall (ln, lv) (List.mem_cons_self _ _)
    exact List.not_mem_nil _ hc
  | case3 ln lv ls' rn rv rs' hlt =>
    have hname : ∀ e ∈ (rn, rv) :: rs', ln < e.1 := by
      intro e he
      rcases List.mem_cons.1 he with rfl | hmem
      · exact hlt
      · exact lt_trans hlt ((List.pairwise_cons.1 hr).1 _ hmem)
    simp only [containsLLlist, if_pos hlt, Bool.false_eq_true, false_iff]
    intro hall
    obtain ⟨c, hc, -⟩ := hall (ln, lv) (List.mem_cons_self _ _)
    exact absurd (hname _ hc) (lt_irrefl _)
  | case4 ln lv ls' rn rv rs' h1 h2 ih =>
    obtain ⟨hr1, hr2⟩ := List.pairwise_cons.1 hr
    have hname : ∀ e ∈ (ln, lv) :: ls', rn < e.1 := by
      intro e he
      rcases List.mem_cons.1 he with rfl | hmem
      · exact h2
      · exact lt_trans h2 ((List.pairwise_cons.1 hl).1 _ hmem)
    simp only [containsLLlist, if_neg h1, if_pos h2]
    rw [ih hl hr2]
    constructor
    · intro hall e he
      obtain ⟨c, hc, hle⟩ := hall e he
      exact ⟨c, List.mem_cons_of_mem _ hc, hle⟩
    · intro hall e he
      obtain ⟨c, hc, hle⟩ := hall e he
      rcases List.mem_cons.1 hc with heq | hmem
      · have : e.1 = rn := (Prod.ext_iff.1 heq).1
        exact absurd (hname e he) (this ▸ lt_irrefl _)
      · exact ⟨c, hmem, hle⟩
  | case5 ln lv ls' rn rv rs' h1 h2 h3 =>
    obtain rfl : rn = ln := le_antisymm (not_lt.1 h1) (not_lt.1 h2)
    simp only [containsLLlist, if_neg h1, if_neg h2, if_pos h3, Bool.false_eq_true,
      false_iff]
    intro hall
    obtain ⟨c, hc, hle⟩ := hall (rn, lv) (List.mem_cons_self _ _)
    rcases List.mem_cons.1 hc with heq | hmem
    · obtain ⟨-, rfl⟩ := Prod.ext_iff.1 heq
      exact absurd h3 (not_lt.2 hle)
    · exact absurd ((List.pairwise_cons.1 hr).1 _ hmem) (lt_irrefl _)
  | case6 ln lv ls' rn rv rs' h1 h2 h3 ih =>
    obtain rfl : rn = ln := le_antisymm (not_lt.1 h1) (not_lt.1 h2)
    obtain ⟨hl1, hl2⟩ := List.pairwise_cons.1 hl
    obtain ⟨hr1, hr2⟩ := List.pairwise_cons.1 hr
    simp only [containsLLlist, if_neg h1, if_neg h2, if_neg h3]
    rw [ih hl2 hr2]
    constructor
    · intro hrec e he
      rcases List.mem_cons.1 he with rfl | hmem
      · exact ⟨rv, List.mem_cons_self _ _, not_lt.1 h3⟩
      · obtain ⟨c, hc, hle⟩ := hrec e hmem
        exact ⟨c, List.mem_cons_of_mem _ hc, hle⟩
    · intro hall e he
      obtain ⟨c, hc, hle⟩ := hall e (List.mem_cons_of_mem _ he)
      rcases List.mem_cons.1 hc with heq | hmem
      · have : e.1 = rn := (Prod.ext_iff.1 heq).1
        exact absurd (hl1 _ he) (this ▸ lt_irrefl _)
      · exact ⟨c, hmem, hle⟩

/-! ## Subtraction characterization -/

theorem getQ_cons_of_gt {m : String} {w : Scalar} {rest : List Entry} {n : String}
    (h : m < n) : getQList ((m, w) :: rest) n = getQList rest n := by
  rw [getQList, if_neg (ne_of_lt h), if_neg (asymm h)]

theorem getQ_cons_of_lt {m : String} {w : Scalar} {rest : List Entry} {n : String}
    (h : n < m) : getQList ((m, w) :: rest) n = 0 := by
  rw [getQList, if_neg (ne_of_gt h), if_pos h]

theorem filterMap_entry_congr {f g : Entry → Option Entry} :
    ∀ {l : List Entry}, (∀ e ∈ l, f e = g e) → l.filterMap f = l.filterMap g := by
  intro l
  induction l with
  | nil => intro _; rfl
  | cons e rest ih =>
    intro h
    rw [List.filterMap_cons, List.filterMap_cons, h e (List.mem_cons_self _ _),
      ih fun x hx => h x (List.mem_cons_of_mem _ hx)]

/-- The effect of one subtraction entry, as a function of the right-hand
lookup: clamped removal or in-place decrease. -/
def subClamp (rs : List Entry) (e : Entry) : Option Entry :=
  if e.2 ≤ getQList rs e.1 then none else some (e.1, e.2 - getQList rs e.1)

theorem subQQlist_eq_filterMap {ls rs : List Entry} (hl : SortedNames ls)
    (hp : AllPos ls) (hr : SortedNames rs) :
    subQQlist ls rs = ls.filterMap (subClamp rs) := by
  induction ls, rs using subQQlist.induct with
  | case1 ls =>
    have : ∀ l, AllPos l → l.filterMap (subClamp []) = l := by
      intro l
      induction l with
      | nil => intro _; rfl
      | cons e rest ih =>
        intro hp'
        have he : subClamp [] e = some e := by
          rw [subClamp, show getQList [] e.1 = (0 : Scalar) from rfl,
            if_neg (not_le.2 (hp' e (List.mem_cons_self _ _))), sub_zero]
        rw [List.filterMap_cons, he, ih fun x hx => hp' x (List.mem_cons_of_mem _ hx)]
    rw [this ls hp]
    simp [subQQlist]
  | case2 e rs' => simp [subQQlist]
  | case3 ln lv ls' rn rv rs' hlt ih =>
    obtain ⟨hl1, hl2⟩ := List.pairwise_cons.1 hl
    have hp2 : AllPos ls' := fun e he => hp _ (List.mem_cons_of_mem _ he)
    have hhd : subClamp ((rn, rv) :: rs') (ln, lv) = some (ln, lv) := by
      rw [subClamp]
      show (if lv ≤ getQList ((rn, rv) :: rs') ln then _ else _) = _
      rw [getQ_cons_of_lt hlt, if_neg (not_le.2 (hp _ (List.mem_cons_self _ _))),
        sub_zero]
    simp only [subQQlist, if_pos hlt]
    rw [List.filterMap_cons, hhd, ih hl2 hp2 hr]
  | case4 ln lv ls' rn rv rs' h1 h2 ih =>
    obtain ⟨hr1, hr2⟩ := List.pairwise_cons.1 hr
    have hname : ∀ e ∈ (ln, lv) :: ls', rn < e.1 := by
      intro e he
      rcases List.mem_cons.1 he with rfl | hmem
      · exact h2
      · exact lt_trans h2 ((List.pairwise_cons.1 hl).1 _ hmem)
    have hcongr : ∀ e ∈ (ln, lv) :: ls',
        subClamp rs' e = subClamp ((rn, rv) :: rs') e := by
      intro e he
      rw [subClamp, subClamp, getQ_cons_of_gt (hname e he)]
    simp only [subQQlist, if_neg h1, if_pos h2]
    rw [ih hl hp hr2, filterMap_entry_congr hcongr]
  | case5 ln lv ls' rn rv rs' h1 h2 h3 ih =>
    obtain rfl : rn = ln := le_antisymm (not_lt.1 h1) (not_lt.1 h2)
    obtain ⟨hl1, hl2⟩ := List.pairwise_cons.1 hl
    obtain ⟨hr1, hr2⟩ := List.pairwise_cons.1 hr
    have hp2 : AllPos ls' := fun e he => hp _ (List.mem_cons_of_mem _ he)
    have hhd : subClamp ((rn, rv) :: rs') (rn, lv) = none := by
      rw [subClamp]
      show (if lv ≤ getQList ((rn, rv) :: rs') rn then _ else _) = _
      rw [getQList, if_pos rfl, if_pos h3]
    have hcongr : ∀ e ∈ ls', subClamp rs' e = subClamp ((rn, rv) :: rs') e := by
      intro e he
      rw [subClamp, subClamp, getQ_cons_of_gt (hl1 _ he)]
    simp only [subQQlist, if_neg h1, if_neg h2, if_pos h3]
    rw [List.filterMap_cons, hhd, ih hl2 hp2 hr2, filterMap_entry_congr hcongr]
  | case6 ln lv ls' rn rv rs' h1 h2 h3 ih =>
    obtain rfl : rn = ln := le_antisymm (not_lt.1 h1) (not_lt.1 h2)
    obtain ⟨hl1, hl2⟩ := List.pairwise_cons.1 hl
    obtain ⟨hr1, hr2⟩ := List.pairwise_cons.1 hr
    have hp2 : AllPos ls' := fun e he => hp _ (List.mem_cons_of_mem _ he)
    have hhd : subClamp ((rn, rv) :: rs') (rn, lv) = some (rn, lv - rv) := by
      rw [subClamp]
      show (if lv ≤ getQList ((rn, rv) :: rs') rn then _
        else some (rn, lv - getQList ((rn, rv) :: rs') rn)) = _
      rw [getQList, if_pos rfl, if_neg h3]
    have hcongr : ∀ e ∈ ls', subClamp rs' e = subClamp ((rn, rv) :: rs') e := by
      intro e he
      rw [subClamp, subClamp, getQ_cons_of_gt (hl1 _ he)]
    simp only [subQQlist, if_neg h1, if_neg h2, if_neg h3]
    rw [List.filterMap_cons, hhd, ih hl2 hp2 hr2, filterMap_entry_congr hcongr]

theorem subQQlist_sorted {ls rs : List Entry} (hl : SortedNames ls)
    (hp : AllPos ls) (hr : SortedNames rs) : SortedNames (subQQlist ls rs) := by
  rw [subQQlist_eq_filterMap hl hp hr]
  refine List.pairwise_filterMap.2 (hl.imp ?_)
  intro a b hab x hx y hy
  rw [subClamp] at hx hy
  split at hx
  · cases hx
  · obtain rfl := Option.some.inj hx
    split at hy
    · cases hy
    · obtain rfl := Option.some.inj hy
      exact hab

theorem subQQlist_pos {ls rs : List Entry} (hl : SortedNames ls)
    (hp : AllPos ls) (hr : SortedNames rs) : AllPos (subQQlist ls rs) := by
  rw [subQQlist_eq_filterMap hl hp hr]
  intro e he
  obtain ⟨a, ha, hfa⟩ := List.mem_filterMap.1 he
  rw [subClamp] at hfa
  split at hfa
  · cases hfa
  · obtain rfl := Option.some.inj hfa
    next hc => exact sub_pos.2 (not_le.1 hc)

/-! ## Merge lemmas for addition -/

theorem addQQ_names {ls rs : List Entry} :
    ∀ e ∈ addQQlist ls rs, (∃ v, (e.1, v) ∈ ls) ∨ (∃ v, (e.1, v) ∈ rs) := by
  induction ls, rs using addQQlist.induct with
  | case1 ls =>
    intro e he
    rw [show addQQlist ls [] = ls by simp [addQQlist]] at he
    exact Or.inl ⟨e.2, (Prod.mk.eta ▸ he : (e.1, e.2) ∈ ls)⟩
  | case2 rs =>
    intro e he
    rw [show addQQlist [] rs = rs by cases rs <;> simp [addQQlist]] at he
    exact Or.inr ⟨e.2, (Prod.mk.eta ▸ he : (e.1, e.2) ∈ rs)⟩
  | case3 ln lv ls' rn rv rs' hlt ih =>
    intro e he
    simp only [addQQlist, if_pos hlt] at he
    rcases List.mem_cons.1 he with rfl | hmem
    · exact Or.inl ⟨lv, List.mem_cons_self _ _⟩
    · rcases ih e hmem with ⟨v, hv⟩ | ⟨v, hv⟩
      · exact Or.inl ⟨v, List.mem_cons_of_mem _ hv⟩
      · exact Or.inr ⟨v, hv⟩
  | case4 ln lv ls' rn rv rs' h1 h2 ih =>
    intro e he
    simp only [addQQlist, if_neg h1, if_pos h2] at he
    rcases List.mem_cons.1 he with rfl | hmem
    · exact Or.inr ⟨rv, List.mem_cons_self _ _⟩
    · rcases ih e hmem with ⟨v, hv⟩ | ⟨v, hv⟩
      · exact Or.inl ⟨v, hv⟩
      · exact Or.inr ⟨v, List.mem_cons_of_mem _ hv⟩
  | case5 ln lv ls' rn rv rs' h1 h2 ih =>
    intro e he
    simp only [addQQlist, if_neg h1, if_neg h2] at he
    rcases List.mem_cons.1 he with rfl | hmem
    · exact Or.inl ⟨lv, List.mem_cons_self _ _⟩
    · rcases ih e hmem with ⟨v, hv⟩ | ⟨v, hv⟩
      · exact Or.inl ⟨v, List.mem_cons_of_mem _ hv⟩
      · exact Or.inr ⟨v, List.mem_cons_of_mem _ hv⟩

theorem addQQlist_sorted {ls rs : List Entry} (hl : SortedNames ls)
    (hr : SortedNames rs) : SortedNames (addQQlist ls rs) := by
  induction ls, rs using addQQlist.induct with
  | case1 ls => rw [show addQQlist ls [] = ls by simp [addQQlist]]; exact hl
  | case2 rs => rw [show addQQlist [] rs = rs by cases rs <;> simp [addQQlist]]; exact hr
  | case3 ln lv ls' rn rv rs' hlt ih =>
    obtain ⟨hl1, hl2⟩ := List.pairwise_cons.1 hl
    obtain ⟨hr1, hr2⟩ := List.pairwise_cons.1 hr
    simp only [addQQlist, if_pos hlt]
    refine List.pairwise_cons.2 ⟨?_, ih hl2 hr⟩
    intro e he
    rcases addQQ_names e he with ⟨v, hv⟩ | ⟨v, hv⟩
    · exact hl1 (e.1, v) hv
    · rcases List.mem_cons.1 hv with heq | hmem
      · exact (Prod.ext_iff.1 heq).1 ▸ hlt
      · exact lt_trans hlt (hr1 (e.1, v) hmem)
  | case4 ln lv ls' rn rv rs' h1 h2 ih =>
    obtain ⟨hl1, hl2⟩ := List.pairwise_cons.1 hl
    obtain ⟨hr1, hr2⟩ := List.pairwise_cons.1 hr
    simp only [addQQlist, if_neg h1, if_pos h2]
    refine List.pairwise_cons.2 ⟨?_, ih hl hr2⟩
    intro e he
    rcases addQQ_names e he with ⟨v, hv⟩ | ⟨v, hv⟩
    · rcases List.mem_cons.1 hv with heq | hmem
      · exact (Prod.ext_iff.1 heq).1 ▸ h2
      · exact lt_trans h2 (hl1 (e.1, v) hmem)
    · exact hr1 (e.1, v) hv
  | case5 ln lv ls' rn rv rs' h1 h2 ih =>
    obtain rfl : rn = ln := le_antisymm (not_lt.1 h1) (not_lt.1 h2)
    obtain ⟨hl1, hl2⟩ := List.pairwise_cons.1 hl
    obtain ⟨hr1, hr2⟩ := List.pairwise_cons.1 hr
    simp only [addQQlist, if_neg h1, if_neg h2]
    refine List.pairwise_cons.2 ⟨?_, ih hl2 hr2⟩
    intro e he
    rcases addQQ_names e he with ⟨v, hv⟩ | ⟨v, hv⟩
    · exact hl1 (e.1, v) hv
    · exact hr1 (e.1, v) hv

theorem addQQlist_pos {ls rs : List Entry} (hp : AllPos ls) (hq : AllPos rs) :
    AllPos (addQQlist ls rs) := by
  induction ls, rs using addQQlist.induct with
  | case1 ls => rw [show addQQlist ls [] = ls by simp [addQQlist]]; exact hp
  | case2 rs => rw [show addQQlist [] rs = rs by cases rs <;> simp [addQQlist]]; exact hq
  | case3 ln lv ls' rn rv rs' hlt ih =>
    simp only [addQQlist, if_pos hlt]
    intro e he
    rcases List.mem_cons.1 he with rfl | hmem
    · exact hp _ (List.mem_cons_self _ _)
    · exact ih (fun x hx => hp _ (List.mem_cons_of_mem _ hx)) hq _ hmem
  | case4 ln lv ls' rn rv rs' h1 h2 ih =>
    simp only [addQQlist, if_neg h1, if_pos h2]
    intro e he
    rcases List.mem_cons.1 he with rfl | hmem
    · exact hq _ (List.mem_cons_self _ _)
    · exact ih hp (fun x hx => hq _ (List.mem_cons_of_mem _ hx)) _ hmem
  | case5 ln lv ls' rn rv rs' h1 h2 ih =>
    simp only [addQQlist, if_neg h1, if_neg h2]
    intro e he
    rcases List.mem_cons.1 he with rfl | hmem
    · exact add_pos (hp _ (List.mem_cons_self _ _)) (hq _ (List.mem_cons_self _ _))
    · exact ih (fun x hx => hp _ (List.mem_cons_of_mem _ hx))
        (fun x hx => hq _ (List.mem_cons_of_mem _ hx)) _ hmem

theorem getQ_addQQ {ls rs : List Entry} (hl : SortedNames ls)
    (hr : SortedNames rs) (n : String) :
    getQList (addQQlist ls rs) n = getQList ls n + getQList rs n := by
  induction ls, rs using addQQlist.induct with
  | case1 ls =>
    rw [show addQQlist ls [] = ls by simp [addQQlist],
      show getQList [] n = 0 from rfl, add_zero]
  | case2 rs =>
    rw [show addQQlist [] rs = rs by cases rs <;> simp [addQQlist],
      show getQList [] n = 0 from rfl, zero_add]
  | case3 ln lv ls' rn rv rs' hlt ih =>
    obtain ⟨hl1, hl2⟩ := List.pairwise_cons.1 hl
    simp only [addQQlist, if_pos hlt]
    rcases lt_trichotomy n ln with hn | rfl | hn
    · rw [getQ_cons_of_lt hn, getQ_cons_of_lt hn,
        getQ_cons_of_lt (lt_trans hn hlt), add_zero]
    · rw [getQList, if_pos rfl, getQList, if_pos rfl, getQ_cons_of_lt hlt, add_zero]
    · rw [getQ_cons_of_gt hn, getQ_cons_of_gt hn, ih hl2 hr]
  | case4 ln lv ls' rn rv rs' h1 h2 ih =>
    obtain ⟨hr1, hr2⟩ := List.pairwise_cons.1 hr
    simp only [addQQlist, if_neg h1, if_pos h2]
    rcases lt_trichotomy n rn with hn | rfl | hn
    · rw [getQ_cons_of_lt hn, getQ_cons_of_lt hn,
        getQ_cons_of_lt (lt_trans hn h2), zero_add]
    · rw [getQList, if_pos rfl, getQ_cons_of_lt h2, getQList, if_pos rfl, zero_add]
    · rw [getQ_cons_of_gt hn, getQ_cons_of_gt hn, ih hl hr2]
  | case5 ln lv ls' rn rv rs' h1 h2 ih =>
    obtain rfl : rn = ln := le_antisymm (not_lt.1 h1) (not_lt.1 h2)
    obtain ⟨hl1, hl2⟩ := List.pairwise_cons.1 hl
    obtain ⟨hr1, hr2⟩ := List.pairwise_cons.1 hr
    simp only [addQQlist, if_neg h1, if_neg h2]
    rcases lt_trichotomy n rn with hn | rfl | hn
    · rw [getQ_cons_of_lt hn, getQ_cons_of_lt hn, getQ_cons_of_lt hn, add_zero]
    · rw [getQList, if_pos rfl, getQList, if_pos rfl, getQList, if_pos rfl]
    · rw [getQ_cons_of_gt hn, getQ_cons_of_gt hn, getQ_cons_of_gt hn, ih hl2 hr2]

/-- A sorted, positive entry list is determined by its lookup function. -/
theorem sorted_pos_ext : ∀ {l1 l2 : List Entry}, SortedNames l1 → SortedNames l2 →
    AllPos l1 → AllPos l2 → (∀ n, getQList l1 n = getQList l2 n) → l1 = l2 := by
  intro l1
  induction l1 with
  | nil =>
    intro l2 _ h2 _ hp2 hfun
    cases l2 with
    | nil => rfl
    | cons f t =>
      exfalso
      have hv : getQList ((f.1, f.2) :: t) f.1 = f.2 :=
        getQ_eq_of_mem (Prod.mk.eta ▸ h2) (List.mem_cons_self _ _)
      rw [Prod.mk.eta] at hv
      have := hfun f.1
      rw [show getQList [] f.1 = 0 from rfl, hv] at this
      exact absurd (hp2 f (List.mem_cons_self _ _)) (by rw [← this]; exact lt_irrefl 0)
  | cons e t1 ih =>
    intro l2 h1 h2 hp1 hp2 hfun
    cases l2 with
    | nil =>
      exfalso
      have hv : getQList ((e.1, e.2) :: t1) e.1 = e.2 :=
        getQ_eq_of_mem (Prod.mk.eta ▸ h1) (List.mem_cons_self _ _)
      rw [Prod.mk.eta] at hv
      have := hfun e.1
      rw [show getQList [] e.1 = 0 from rfl, hv] at this
      exact absurd (hp1 e (List.mem_cons_self _ _)) (by rw [this]; exact lt_irrefl 0)
    | cons f t2 =>
      obtain ⟨h11, h12⟩ := List.pairwise_cons.1 h1
      obtain ⟨h21, h22⟩ := List.pairwise_cons.1 h2
      have hv1 : getQList (e :: t1) e.1 = e.2 :=
        getQ_eq_of_mem h1 (Prod.mk.eta ▸ List.mem_cons_self _ _)
      have hv2 : getQList (f :: t2) f.1 = f.2 :=
        getQ_eq_of_mem h2 (Prod.mk.eta ▸ List.mem_cons_self _ _)
      rcases lt_trichotomy e.1 f.1 with hn | hn | hn
      · exfalso
        have hz : getQList (f :: t2) e.1 = 0 := by
          refine getQ_eq_zero_of_forall_lt ?_
          intro x hx
          rcases List.mem_cons.1 hx with rfl | hmem
          · exact hn
          · exact lt_trans hn (h21 _ hmem)
        have := hfun e.1
        rw [hv1, hz] at this
        exact absurd (hp1 e (List.mem_cons_self _ _)) (by rw [this]; exact lt_irrefl 0)
      · have hval : e.2 = f.2 := by
          have := hfun e.1
          rw [hv1, hn, hv2] at this
          exact this
        have htail : ∀ n, getQList t1 n = getQList t2 n := by
          intro n
          rcases lt_trichotomy e.1 n with hne | rfl | hne
          · have ha := hfun n
            rw [show e = (e.1, e.2) from (Prod.mk.eta).symm, getQ_cons_of_gt hne] at ha
            rw [show f = (f.1, f.2) from (Prod.mk.eta).symm, ← hn,
              getQ_cons_of_gt hne] at ha
            exact ha
          · rw [getQ_eq_zero_of_forall_lt (fun x hx => h11 _ hx),
              getQ_eq_zero_of_forall_lt (fun x hx => hn ▸ h21 _ hx)]
          · rw [getQ_eq_zero_of_forall_lt
                (fun x hx => lt_trans hne (h11 _ hx)),
              getQ_eq_zero_of_forall_lt
                (fun x hx => lt_trans (hn ▸ hne) (h21 _ hx))]
        have heq : e = f := by
          refine Prod.ext_iff.2 ⟨hn, hval⟩
        rw [heq, ih h12 h22 (fun x hx => hp1 _ (List.mem_cons_of_mem _ hx))
          (fun x hx => hp2 _ (List.mem_cons_of_mem _ hx)) htail]
      · exfalso
        have hz : getQList (e :: t1) f.1 = 0 := by
          refine getQ_eq_zero_of_forall_lt ?_
          intro x hx
          rcases List.mem_cons.1 hx with rfl | hmem
          · exact hn
          · exact lt_trans hn (h11 _ hmem)
        have := hfun f.1
        rw [hv2, hz] at this
        exact absurd (hp2 f (List.mem_cons_self _ _)) (by rw [← this]; exact lt_irrefl 0)

/-! ## Parsing lemmas -/

theorem qStep_ok_cases {acc r : ResourceQuantities} {token : List Char}
    (h : qStep acc token = .ok r) :
    ∃ name valueStr v, tokenizeChars ':' token = [name, valueStr] ∧
      valuesParse valueStr = .ok v ∧ 0 ≤ v ∧
      ((0 < v ∧ r = acc.add ⟨trimChars name⟩ v) ∨ (v = 0 ∧ r = acc)) := by
  rw [qStep] at h
  split at h
  · next name valueStr heq =>
    split at h
    · cases h
    · next v hv =>
      split at h
      · cases h
      · next hneg =>
        split at h
        · next hpos =>
          exact ⟨name, valueStr, v, heq, hv, le_of_lt hpos,
            Or.inl ⟨hpos, (Option.some.inj (congrArg Except.toOption h)).symm⟩⟩
        · next hpos =>
          have hz : v = 0 := le_antisymm (not_lt.1 hpos) (not_lt.1 hneg)
          exact ⟨name, valueStr, v, heq, hv, le_of_eq hz.symm,
            Or.inr ⟨hz, (Option.some.inj (congrArg Except.toOption h)).symm⟩⟩
  · cases h

theorem lStep_ok_cases {acc r : ResourceLimits} {token : List Char}
    (h : lStep acc token = .ok r) :
    ∃ name valueStr v, tokenizeChars ':' token = [name, valueStr] ∧
      valuesParse valueStr = .ok v ∧ 0 ≤ v ∧
      getLList acc.limits ⟨trimChars name⟩ = none ∧
      r = acc.set ⟨trimChars name⟩ v := by
  rw [lStep] at h
  split at h
  · next name valueStr heq =>
    split at h
    · cases h
    · next v hv =>
      split at h
      · cases h
      · next hneg =>
        split at h
        · cases h
        · next hdup =>
          exact ⟨name, valueStr, v, heq, hv, not_lt.1 hneg,
            Option.not_isSome_iff_eq_none.1 hdup,
            (Option.some.inj (congrArg Except.toOption h)).symm⟩
  · cases h

theorem qStep_ok_invariant {acc r : ResourceQuantities} {token : List Char}
    (h : qStep acc token = .ok r) (hs : SortedNames acc.quantities)
    (hp : AllPos acc.quantities) :
    SortedNames r.quantities ∧ AllPos r.quantities := by
  obtain ⟨name, valueStr, v, -, -, -, hcase⟩ := qStep_ok_cases h
  rcases hcase with ⟨hpos, rfl⟩ | ⟨-, rfl⟩
  · rw [ResourceQuantities.add, if_neg (ne_of_gt hpos)]
    exact ⟨addEntry_sorted hs, addEntry_pos hp hpos⟩
  · exact ⟨hs, hp⟩

theorem lStep_ok_invariant {acc r : ResourceLimits} {token : List Char}
    (h : lStep acc token = .ok r) (hs : SortedNames acc.limits)
    (hp : AllNonneg acc.limits) :
    SortedNames r.limits ∧ AllNonneg r.limits := by
  obtain ⟨name, valueStr, v, -, -, hv, -, rfl⟩ := lStep_ok_cases h
  exact ⟨setEntry_sorted hs, setEntry_nonneg hp hv⟩

theorem parseTokensQ_invariant :
    ∀ {toks : List (List Char)} {acc r : ResourceQuantities},
      parseTokens qStep acc toks = .ok r → SortedNames acc.quantities →
      AllPos acc.quantities → SortedNames r.quantities ∧ AllPos r.quantities := by
  intro toks
  induction toks with
  | nil =>
    intro acc r h hs hp
    obtain rfl : acc = r := Option.some.inj (congrArg Except.toOption h)
    exact ⟨hs, hp⟩
  | cons t ts ih =>
    intro acc r h hs hp
    rw [parseTokens] at h
    split at h
    · next next hstep =>
      obtain ⟨hs', hp'⟩ := qStep_ok_invariant hstep hs hp
      exact ih h hs' hp'
    · cases h

theorem parseTokensL_invariant :
    ∀ {toks : List (List Char)} {acc r : ResourceLimits},
      parseTokens lStep acc toks = .ok r → SortedNames acc.limits →
      AllNonneg acc.limits → SortedNames r.limits ∧ AllNonneg r.limits := by
  intro toks
  induction toks with
  | nil =>
    intro acc r h hs hp
    obtain rfl : acc = r := Option.some.inj (congrArg Except.toOption h)
    exact ⟨hs, hp⟩
  | cons t ts ih =>
    intro acc r h hs hp
    rw [parseTokens] at h
    split at h
    · next next hstep =>
      obtain ⟨hs', hp'⟩ := lStep_ok_invariant hstep hs hp
      exact ih h hs' hp'
    · cases h

/-- A token whose colon tokenization does not have exactly two parts makes the
quantity step fail with a malformed-token error. -/
theorem qStep_malformed {acc : ResourceQuantities} {token : List Char}
    (h : (tokenizeChars ':' token).length ≠ 2) :
    qStep acc token = .error (.malformedToken ⟨token⟩) := by
  rw [qStep]
  split
  · next name valueStr heq => exact absurd (by rw [heq]; rfl) h
  · rfl

theorem lStep_malformed {acc : ResourceLimits} {token : List Char}
    (h : (tokenizeChars ':' token).length ≠ 2) :
    lStep acc token = .error (.malformedToken ⟨token⟩) := by
  rw [lStep]
  split
  · next name valueStr heq => exact absurd (by rw [heq]; rfl) h
  · rfl

theorem parseTokens_append {α : Type} {step : α → List Char → Except ParseError α}
    {pre : List (List Char)} {acc mid : α} (h : parseTokens step acc pre = .ok mid)
    (ts : List (List Char)) :
    parseTokens step acc (pre ++ ts) = parseTokens step mid ts := by
  induction pre generalizing acc with
  | nil =>
    obtain rfl : acc = mid := Option.some.inj (congrArg Except.toOption h)
    rfl
  | cons t pre' ih =>
    rw [parseTokens] at h
    rw [List.cons_append, parseTokens]
    split at h
    · next next hstep => exact ih h
    · cases h

theorem parseTokens_error_stop {α : Type} {step : α → List Char → Except ParseError α}
    {mid : α} {t : List Char} {e : ParseError} (h : step mid t = .error e)
    (ts : List (List Char)) :
    parseTokens step mid (t :: ts) = .error e := by
  rw [parseTokens, h]

/-- If any token of the list fails its step for every accumulator, the walk
ends in some error. -/
theorem parseTokens_error_of_bad {α : Type}
    {step : α → List Char → Except ParseError α} :
    ∀ {toks : List (List Char)} {acc : α},
      (∃ t ∈ toks, ∀ a : α, ∃ e, step a t = .error e) →
      ∃ e, parseTokens step acc toks = .error e := by
  intro toks
  induction toks with
  | nil =>
    intro acc h
    obtain ⟨t, ht, -⟩ := h
    exact absurd ht (List.not_mem_nil _)
  | cons t ts ih =>
    intro acc h
    rcases hstep : step acc t with e | next
    · exact ⟨e, by rw [parseTokens, hstep]⟩
    · obtain ⟨u, hu, hbad⟩ := h
      rcases List.mem_cons.1 hu with rfl | hmem
      · obtain ⟨e, he⟩ := hbad acc
        rw [hstep] at he
        cases he
      · obtain ⟨e, he⟩ := @ih next ⟨u, hmem, hbad⟩
        exact ⟨e, by rw [parseTokens, hstep]; exact he⟩

/-! ## Splitter and trim lemmas -/

theorem splitOnChar_ne_nil (c : Char) (cs : List Char) : splitOnChar c cs ≠ [] := by
  cases cs with
  | nil => simp [splitOnChar]
  | cons a rest =>
    rw [splitOnChar]
    cases h : splitOnChar c rest with
    | nil => simp
    | cons t ts =>
      by_cases hac : a = c <;> simp [hac]

theorem splitOnChar_of_not_mem {c : Char} {cs : List Char} (h : c ∉ cs) :
    splitOnChar c cs = [cs] := by
  induction cs with
  | nil => rfl
  | cons a rest ih =>
    have hac : a ≠ c := fun hc => h (hc ▸ List.mem_cons_self _ _)
    have hrest : c ∉ rest := fun hc => h (List.mem_cons_of_mem _ hc)
    rw [splitOnChar, ih hrest]
    simp [hac]

theorem splitOnChar_append {c : Char} {xs : List Char} (ys : List Char)
    (h : c ∉ xs) : splitOnChar c (xs ++ c :: ys) = xs :: splitOnChar c ys := by
  induction xs with
  | nil =>
    rw [List.nil_append, splitOnChar]
    cases hys : splitOnChar c ys with
    | nil => exact absurd hys (splitOnChar_ne_nil c ys)
    | cons t ts => simp
  | cons x xs' ih =>
    have hxc : x ≠ c := fun hc => h (hc ▸ List.mem_cons_self _ _)
    have hxs : c ∉ xs' := fun hc => h (List.mem_cons_of_mem _ hc)
    rw [List.cons_append, splitOnChar, ih hxs]
    simp [hxc]

theorem tokenizeChars_of_not_mem {c : Char} {cs : List Char} (h : c ∉ cs)
    (hne : cs ≠ []) : tokenizeChars c cs = [cs] := by
  have hb : (!cs.isEmpty) = true := by
    cases cs
    · exact absurd rfl hne
    · rfl
  rw [tokenizeChars, splitOnChar_of_not_mem h]
  simp [List.filter, hb]

theorem tokenizeChars_append {c : Char} {xs : List Char} (ys : List Char)
    (h : c ∉ xs) (hne : xs ≠ []) :
    tokenizeChars c (xs ++ c :: ys) = xs :: tokenizeChars c ys := by
  have hb : (!xs.isEmpty) = true := by
    cases xs
    · exact absurd rfl hne
    · rfl
  rw [tokenizeChars, splitOnChar_append ys h, tokenizeChars]
  simp [List.filter, hb]

theorem trimChars_of_no_ws {cs : List Char}
    (h : ∀ x ∈ cs, x.isWhitespace = false) : trimChars cs = cs := by
  have hdrop : ∀ l : List Char, (∀ x ∈ l, x.isWhitespace = false) →
      l.dropWhile Char.isWhitespace = l := by
    intro l hl
    cases l with
    | nil => rfl
    | cons a rest =>
      rw [List.dropWhile_cons_of_neg]
      rw [hl a (List.mem_cons_self _ _)]
      exact Bool.false_ne_true
  rw [trimChars, hdrop _ h, hdrop _ fun x hx => h x (List.mem_reverse.1 hx),
    List.reverse_reverse]

theorem trimChars_cons_space (cs : List Char) :
    trimChars (' ' :: cs) = trimChars cs := by
  rw [trimChars, trimChars, List.dropWhile_cons_of_pos]
  rfl

/-! ## Digit and numeral lemmas -/

theorem digit_ne_of_isDigit {c : Char} (h : c.isDigit = true) :
    c ≠ ';' ∧ c ≠ ':' ∧ c ≠ '.' ∧ c ≠ '-' := by
  refine ⟨fun hc => ?_, fun hc => ?_, fun hc => ?_, fun hc => ?_⟩ <;>
    (subst hc; revert h; decide)

theorem not_ws_of_isDigit {c : Char} (h : c.isDigit = true) :
    c.isWhitespace = false := by
  cases hb : c.isWhitespace
  · rfl
  · exfalso
    simp only [Char.isWhitespace, Bool.or_eq_true, decide_eq_true_eq] at hb
    rcases hb with ((rfl | rfl) | rfl) | rfl <;> revert h <;> decide

theorem digitsVal_cons (c : Char) (cs : List Char) :
    digitsVal (c :: cs) =
      (c :: cs).foldl (fun n x => 10 * n + (x.toNat - 48)) 0 := rfl

theorem digitsVal_replicate_zero (k : Nat) (cs : List Char) :
    digitsVal (List.replicate k '0' ++ cs) = digitsVal cs := by
  have haux : ∀ j, (List.replicate j '0').foldl
      (fun n x => 10 * n + (x.toNat - 48)) 0 = 0 := by
    intro j
    induction j with
    | zero => rfl
    | succ j ih => rw [List.replicate_succ, List.foldl_cons]; exact ih
  rw [digitsVal, List.foldl_append, haux]
  rfl

theorem natChars_ne_nil (n : Nat) : natChars n ≠ [] := by
  rw [natChars]
  split
  · exact List.cons_ne_nil _ _
  · next h =>
    intro hc
    rw [List.map_eq_nil_iff, List.reverse_eq_nil_iff] at hc
    exact absurd (Nat.digits_ne_nil_iff_ne_zero.2 h) (fun hn => hn hc)

theorem natChars_digits (n : Nat) : ∀ c ∈ natChars n, c.isDigit = true := by
  rw [natChars]
  split
  · intro c hc
    rcases List.mem_singleton.1 hc with rfl
    decide
  · intro c hc
    obtain ⟨d, hd, rfl⟩ := List.mem_map.1 hc
    have hlt : d < 10 := Nat.digits_lt_base (by omega) (List.mem_reverse.1 hd)
    interval_cases d <;> decide

theorem digitsVal_digit_chars :
    ∀ (ds : List Nat), (∀ d ∈ ds, d < 10) →
      digitsVal (ds.reverse.map Nat.digitChar) = Nat.ofDigits 10 ds := by
  intro ds
  induction ds with
  | nil => intro _; rfl
  | cons d ds' ih =>
    intro h
    have hd : d < 10 := h d (List.mem_cons_self _ _)
    have hds' : ∀ x ∈ ds', x < 10 := fun x hx => h x (List.mem_cons_of_mem _ hx)
    rw [List.reverse_cons, List.map_append, digitsVal, List.foldl_append]
    have hdigit : (Nat.digitChar d).toNat - 48 = d := by interval_cases d <;> decide
    show (10 * digitsVal (ds'.reverse.map Nat.digitChar) +
      ((Nat.digitChar d).toNat - 48) : Nat) = _
    rw [hdigit, ih hds', Nat.ofDigits_cons]
    ring

theorem digitsVal_natChars (n : Nat) : digitsVal (natChars n) = n := by
  rw [natChars]
  split
  · next h => subst h; decide
  · next h =>
    rw [digitsVal_digit_chars _ fun d hd => Nat.digits_lt_base (by omega) hd,
      Nat.ofDigits_digits]

theorem natChars_length_le {x k : Nat} (hk : 1 ≤ k) (hx : x < 10 ^ k) :
    (natChars x).length ≤ k := by
  rw [natChars]
  split
  · simpa using hk
  · next h =>
    rw [List.length_map, List.length_reverse,
      Nat.digits_len 10 x (by omega) h]
    have := (Nat.lt_pow_iff_log_lt (by omega) h).1 hx
    omega

/-- A denominator dividing some power of ten divides the `den - 1`-th power:
its 2- and 5-exponents are below the value itself. -/
theorem dvd_pow_ten_pred {d s : Nat} (hd : 0 < d) (h : d ∣ 10 ^ s) :
    d ∣ 10 ^ (d - 1) := by
  have hd0 : d ≠ 0 := Nat.pos_iff_ne_zero.1 hd
  have hpow : (10 : Nat) ^ (d - 1) ≠ 0 := pow_ne_zero _ (by norm_num)
  rw [← Nat.factorization_le_iff_dvd hd0 hpow]
  intro p
  rw [Nat.factorization_pow, Finsupp.smul_apply, smul_eq_mul]
  by_cases hp : p.Prime
  · by_cases h10 : (10 : Nat).factorization p = 0
    · have hs : d.factorization p ≤ (10 ^ s).factorization p :=
        (Nat.factorization_le_iff_dvd hd0 (pow_ne_zero _ (by norm_num))).2 h p
      rw [Nat.factorization_pow, Finsupp.smul_apply, smul_eq_mul, h10,
        Nat.mul_zero] at hs
      omega
    · have h1 : 1 ≤ (10 : Nat).factorization p := Nat.one_le_iff_ne_zero.2 h10
      have hfd : p ^ d.factorization p ∣ d := Nat.ordProj_dvd d p
      have hle : p ^ d.factorization p ≤ d := Nat.le_of_dvd hd hfd
      have hlt : d.factorization p < 2 ^ d.factorization p :=
        Nat.lt_pow_self (by omega) _
      have h2p : 2 ≤ p := hp.two_le
      have : 2 ^ d.factorization p ≤ p ^ d.factorization p :=
        Nat.pow_le_pow_left h2p _
      have hfle : d.factorization p ≤ d - 1 := by omega
      calc d.factorization p ≤ (d - 1) * 1 := by omega
        _ ≤ (d - 1) * (10 : Nat).factorization p :=
          Nat.mul_le_mul_left _ h1
  · rw [Nat.factorization_eq_zero_of_non_prime _ hp]
    exact Nat.zero_le _

theorem renderScalar_chars {q : Rat} :
    ∀ c ∈ renderScalarChars q, c.isDigit = true ∨ c = '.' := by
  intro c hc
  simp only [renderScalarChars] at hc
  split at hc
  · exact Or.inl (natChars_digits _ c hc)
  · rcases List.mem_append.1 hc with hmem | hmem
    · exact Or.inl (natChars_digits _ c hmem)
    · rcases List.mem_cons.1 hmem with rfl | hmem'
      · exact Or.inr rfl
      · rcases List.mem_append.1 hmem' with hz | hd
        · rcases List.eq_of_mem_replicate hz with rfl
          exact Or.inl (by decide)
        · exact Or.inl (natChars_digits _ c hd)

theorem renderScalar_ne_nil (q : Rat) : renderScalarChars q ≠ [] := by
  simp only [renderScalarChars]
  split
  · exact natChars_ne_nil _
  · exact fun hc => List.append_ne_nil_of_right_ne_nil _ (List.cons_ne_nil _ _) hc

theorem renderScalar_no_dot_parts {q : Rat} :
    ∀ x ∈ natChars ((q.num.toNat * 10 ^ (q.den - 1) / q.den) / 10 ^ (q.den - 1)),
      x ≠ '.' := by
  intro x hx
  exact (digit_ne_of_isDigit (natChars_digits _ x hx)).2.2.1

theorem parseUnsigned_split_one {cs ip : List Char}
    (hsplit : splitOnChar '.' cs = [ip]) (h1 : ip ≠ [])
    (h2 : allDigits ip = true) :
    parseUnsignedDecimal cs = some ((digitsVal ip : Nat) : Rat) := by
  rw [parseUnsignedDecimal, hsplit]
  exact if_pos ⟨h1, h2⟩

theorem parseUnsigned_split_two {cs ip fp : List Char}
    (hsplit : splitOnChar '.' cs = [ip, fp]) (h1 : ip ≠ []) (h2 : fp ≠ [])
    (h3 : allDigits ip = true) (h4 : allDigits fp = true) :
    parseUnsignedDecimal cs =
      some ((digitsVal ip : Rat) + (digitsVal fp : Rat) / (10 : Rat) ^ fp.length) := by
  rw [parseUnsignedDecimal, hsplit]
  exact if_pos ⟨h1, h2, h3, h4⟩

/-- Parsing the rendered decimal text of a grammar-representable non-negative
rational yields the rational back. -/
theorem parseUnsigned_render {q : Rat} (hq : 0 ≤ q)
    (hdvd : q.den ∣ 10 ^ (q.den - 1)) :
    parseUnsignedDecimal (renderScalarChars q) = some q := by
  have hnum : (0 : Int) ≤ q.num := Rat.num_nonneg.2 hq
  have hden : (0 : Nat) < q.den := q.den_pos
  by_cases hk : q.den - 1 = 0
  · have hden1 : q.den = 1 := by omega
    have hrender : renderScalarChars q = natChars q.num.toNat := by
      simp only [renderScalarChars, hk, if_pos]
      norm_num [hden1]
    rw [hrender, parseUnsigned_split_one
      (splitOnChar_of_not_mem
        (fun hdot => (digit_ne_of_isDigit (natChars_digits _ _ hdot)).2.2.1 rfl))
      (natChars_ne_nil _)
      (by rw [allDigits, List.all_eq_true]
          exact fun c hc => natChars_digits _ c hc),
      digitsVal_natChars]
    congr 1
    refine Rat.ext ?_ ?_
    · rw [Rat.num_natCast, Int.toNat_of_nonneg hnum]
    · rw [Rat.den_natCast, hden1]
  · have hk1 : 1 ≤ q.den - 1 := Nat.one_le_iff_ne_zero.2 hk
    set k := q.den - 1 with hkdef
    set m := q.num.toNat * 10 ^ k / q.den with hmdef
    have hpow : (0 : Nat) < 10 ^ k := Nat.pos_pow_of_pos _ (by norm_num)
    have hmod : m % 10 ^ k < 10 ^ k := Nat.mod_lt _ hpow
    have hlen : (natChars (m % 10 ^ k)).length ≤ k := natChars_length_le hk1 hmod
    have hrender : renderScalarChars q =
        natChars (m / 10 ^ k) ++ '.' ::
          (List.replicate (k - (natChars (m % 10 ^ k)).length) '0' ++
            natChars (m % 10 ^ k)) := by
      simp only [renderScalarChars, ← hkdef, ← hmdef, if_neg hk]
    have hB : List.replicate (k - (natChars (m % 10 ^ k)).length) '0' ++
        natChars (m % 10 ^ k) ≠ [] :=
      List.append_ne_nil_of_right_ne_nil _ (natChars_ne_nil _)
    have hBlen : (List.replicate (k - (natChars (m % 10 ^ k)).length) '0' ++
        natChars (m % 10 ^ k)).length = k := by
      rw [List.length_append, List.length_replicate]
      omega
    have hnodotA : ∀ x ∈ natChars (m / 10 ^ k), x ≠ '.' := fun x hx =>
      (digit_ne_of_isDigit (natChars_digits _ x hx)).2.2.1
    have hnodotB : '.' ∉ List.replicate (k - (natChars (m % 10 ^ k)).length) '0' ++
        natChars (m % 10 ^ k) := by
      intro hmem
      rcases List.mem_append.1 hmem with hz | hd
      · rcases List.eq_of_mem_replicate hz with h0
        exact absurd h0 (by decide)
      · exact (digit_ne_of_isDigit (natChars_digits _ _ hd)).2.2.1 rfl
    have hsplit2 : splitOnChar '.' (renderScalarChars q) =
        [natChars (m / 10 ^ k),
          List.replicate (k - (natChars (m % 10 ^ k)).length) '0' ++
            natChars (m % 10 ^ k)] := by
      rw [hrender, splitOnChar_append _ (fun hmem => hnodotA _ hmem rfl),
        splitOnChar_of_not_mem hnodotB]
    rw [parseUnsigned_split_two hsplit2 (natChars_ne_nil _) hB
      (by rw [allDigits, List.all_eq_true]
          exact fun c hc => natChars_digits _ c hc)
      (by rw [allDigits, List.all_eq_true]
          intro c hc
          rcases List.mem_append.1 hc with hz | hd
          · rcases List.eq_of_mem_replicate hz with rfl
            decide
          · exact natChars_digits _ c hd)]
    rw [digitsVal_replicate_zero, digitsVal_natChars, digitsVal_natChars, hBlen]
    -- arithmetic: the rendered value equals q
    have hexact : m * q.den = q.num.toNat * 10 ^ k :=
      Nat.div_mul_cancel (Dvd.dvd.mul_left hdvd _)
    have h10 : ((10 : Rat) ^ k) ≠ 0 := by positivity
    have hdenQ : ((q.den : Rat)) ≠ 0 := by
      exact_mod_cast Nat.pos_iff_ne_zero.1 hden
    have hdm : ((m / 10 ^ k) * 10 ^ k + m % 10 ^ k : Nat) = m := by
      rw [Nat.mul_comm]
      exact Nat.div_add_mod m (10 ^ k)
    have hcast2 : ((m / 10 ^ k : Nat) : Rat) * (10 : Rat) ^ k +
        ((m % 10 ^ k : Nat) : Rat) = (m : Rat) := by
      exact_mod_cast congrArg (fun x : Nat => (x : Rat)) hdm
    have hsplit : ((m / 10 ^ k : Nat) : Rat) + ((m % 10 ^ k : Nat) : Rat) /
        (10 : Rat) ^ k = (m : Rat) / (10 : Rat) ^ k := by
      rw [eq_div_iff h10, add_mul, div_mul_cancel₀ _ h10]
      exact hcast2
    rw [hsplit]
    congr 1
    have hZ : (m : Int) * (q.den : Int) = q.num * 10 ^ k := by
      have h1 : ((m * q.den : Nat) : Int) = ((q.num.toNat * 10 ^ k : Nat) : Int) :=
        congrArg (fun x : Nat => (x : Int)) hexact
      rw [Nat.cast_mul, Nat.cast_mul, Nat.cast_pow,
        Int.toNat_of_nonneg hnum] at h1
      norm_num at h1 ⊢
      exact h1
    have hcast : (m : Rat) * (q.den : Rat) = (q.num : Rat) * (10 : Rat) ^ k := by
      exact_mod_cast hZ
    rw [div_eq_iff h10, ← Rat.num_div_den q, div_mul_eq_mul_div,
      eq_div_iff hdenQ]
    linear_combination hcast

theorem valuesParse_cons {cs : List Char} {c : Char} {rest : List Char} {q : Rat}
    (htrim : trimChars cs = c :: rest) (hc : c ≠ '-')
    (hp : parseUnsignedDecimal (c :: rest) = some q) :
    valuesParse cs = .ok q := by
  simp only [valuesParse, htrim, if_neg hc, hp]

theorem valuesParse_render {q : Rat} (hq : 0 ≤ q)
    (hdvd : q.den ∣ 10 ^ (q.den - 1)) :
    valuesParse (renderScalarChars q) = .ok q := by
  have htrim : trimChars (renderScalarChars q) = renderScalarChars q :=
    trimChars_of_no_ws fun x hx => by
      rcases renderScalar_chars x hx with hd | rfl
      · exact not_ws_of_isDigit hd
      · decide
  rcases hr : renderScalarChars q with _ | ⟨c, rest⟩
  · exact absurd hr (renderScalar_ne_nil q)
  · have hc : c ≠ '-' := by
      have : c ∈ renderScalarChars q := hr ▸ List.mem_cons_self _ _
      rcases renderScalar_chars c this with hd | rfl
      · exact (digit_ne_of_isDigit hd).2.2.2
      · decide
    exact valuesParse_cons (hr ▸ htrim) hc (hr ▸ parseUnsigned_render hq hdvd)

/-! ## Rendering round trip -/

/-- Names as produced by parsing: non-empty, trimmed, and free of the two
separator characters. -/
def ValidName (s : String) : Prop :=
  s.data ≠ [] ∧ trimChars s.data = s.data ∧ ∀ c ∈ s.data, c ≠ ';' ∧ c ≠ ':'

/-- A scalar value the external decimal grammar can denote. -/
def GrammarScalar (v : Scalar) : Prop := ∃ s, v.den ∣ 10 ^ s

theorem renderEntry_no_semi {e : Entry} (h : ValidName e.1) :
    ';' ∉ renderEntryChars e := by
  intro hmem
  rw [renderEntryChars] at hmem
  rcases List.mem_append.1 hmem with hn | hv
  · exact (h.2.2 _ hn).1 rfl
  · rcases List.mem_cons.1 hv with hcolon | hscalar
    · exact absurd hcolon (by decide)
    · rcases renderScalar_chars _ hscalar with hd | hdot
      · exact (digit_ne_of_isDigit hd).1 rfl
      · exact absurd hdot (by decide)

theorem renderEntry_ne_nil (e : Entry) : renderEntryChars e ≠ [] := by
  rw [renderEntryChars]
  exact List.append_ne_nil_of_right_ne_nil _ (List.cons_ne_nil _ _)

/-- The separators-and-entries suffix that the printing loop emits after the
first entry. -/
def tailChars : List Entry → List Char
  | [] => []
  | f :: l => ';' :: ' ' :: renderEntryChars f ++ tailChars l

theorem renderEntries_eq_head_tail (e : Entry) (l : List Entry) :
    renderEntriesChars (e :: l) = renderEntryChars e ++ tailChars l := by
  induction l generalizing e with
  | nil => rw [renderEntriesChars, tailChars, List.append_nil]
  | cons f l' ih =>
    rw [show renderEntriesChars (e :: f :: l') =
        renderEntryChars e ++ ';' :: ' ' :: renderEntriesChars (f :: l') from rfl,
      ih f, tailChars]
    simp [List.append_assoc]

theorem tokenize_head_tail :
    ∀ (l : List Entry) (x : List Char), x ≠ [] → ';' ∉ x →
      (∀ f ∈ l, ';' ∉ renderEntryChars f) →
      tokenizeChars ';' (x ++ tailChars l) =
        x :: l.map (fun f => ' ' :: renderEntryChars f) := by
  intro l
  induction l with
  | nil =>
    intro x hx hnosemi _
    rw [tailChars, List.append_nil, tokenizeChars_of_not_mem hnosemi hx]
    rfl
  | cons f l' ih =>
    intro x hx hnosemi hl
    rw [tailChars, show x ++ (';' :: ' ' :: renderEntryChars f ++ tailChars l') =
      x ++ ';' :: (' ' :: renderEntryChars f ++ tailChars l') from by simp,
      tokenizeChars_append _ hnosemi hx,
      show ' ' :: renderEntryChars f ++ tailChars l' =
        (' ' :: renderEntryChars f) ++ tailChars l' from rfl,
      ih (' ' :: renderEntryChars f) (List.cons_ne_nil _ _)
        (by
          intro hmem
          rcases List.mem_cons.1 hmem with hsp | hmem'
          · exact absurd hsp (by decide)
          · exact hl f (List.mem_cons_self _ _) hmem')
        fun g hg => hl g (List.mem_cons_of_mem _ hg)]
    rfl

/-! ## Step evaluation on rendered tokens -/

theorem qStep_eval {acc : ResourceQuantities} {token name valueStr : List Char}
    {v : Rat} (htok : tokenizeChars ':' token = [name, valueStr])
    (hval : valuesParse valueStr = .ok v) :
    qStep acc token = if v < 0 then .error (.negativeValue ⟨valueStr⟩)
      else if 0 < v then .ok (acc.add ⟨trimChars name⟩ v) else .ok acc := by
  rw [qStep, htok]
  simp only [hval]

theorem lStep_eval {acc : ResourceLimits} {token name valueStr : List Char}
    {v : Rat} (htok : tokenizeChars ':' token = [name, valueStr])
    (hval : valuesParse valueStr = .ok v) :
    lStep acc token = if v < 0 then .error (.negativeValue ⟨valueStr⟩)
      else if (getLList acc.limits ⟨trimChars name⟩).isSome then
        .error (.duplicateName ⟨valueStr⟩)
      else .ok (acc.set ⟨trimChars name⟩ v) := by
  rw [lStep, htok]
  simp only [hval]

theorem tokenize_rendered_token {name : String} {v : Scalar} (sp : List Char)
    (hsp : sp = [] ∨ sp = [' ']) (hname : ValidName name) :
    tokenizeChars ':' (sp ++ renderEntryChars (name, v)) =
      [sp ++ name.data, renderScalarChars v] := by
  have hnocolon : ':' ∉ sp ++ name.data := by
    intro hmem
    rcases List.mem_append.1 hmem with hs | hn
    · rcases hsp with rfl | rfl
      · cases hs
      · rcases List.mem_singleton.1 hs with h0
        exact absurd h0 (by decide)
    · exact (hname.2.2 _ hn).2 rfl
  have hne : sp ++ name.data ≠ [] :=
    fun hc => hname.1 (List.append_eq_nil.1 hc).2
  have hnocolon2 : ':' ∉ renderScalarChars v := by
    intro hmem
    rcases renderScalar_chars _ hmem with hd | hdot
    · exact (digit_ne_of_isDigit hd).2.1 rfl
    · exact absurd hdot (by decide)
  rw [renderEntryChars,
    show sp ++ (name.data ++ ':' :: renderScalarChars v) =
      (sp ++ name.data) ++ ':' :: renderScalarChars v from by simp,
    tokenizeChars_append _ hnocolon hne,
    tokenizeChars_of_not_mem hnocolon2 (renderScalar_ne_nil v)]

theorem trim_sp_name {name : String} (sp : List Char)
    (hsp : sp = [] ∨ sp = [' ']) (hname : ValidName name) :
    trimChars (sp ++ name.data) = name.data := by
  rcases hsp with rfl | rfl
  · rw [List.nil_append, hname.2.1]
  · rw [List.singleton_append, trimChars_cons_space, hname.2.1]

theorem qStep_render {acc : ResourceQuantities} {name : String} {v : Scalar}
    (sp : List Char) (hsp : sp = [] ∨ sp = [' ']) (hname : ValidName name)
    (hv : 0 < v) (hdvd : v.den ∣ 10 ^ (v.den - 1)) :
    qStep acc (sp ++ renderEntryChars (name, v)) = .ok (acc.add name v) := by
  rw [qStep_eval (tokenize_rendered_token sp hsp hname)
      (valuesParse_render (le_of_lt hv) hdvd),
    if_neg (not_lt.2 (le_of_lt hv)), if_pos hv, trim_sp_name sp hsp hname]

theorem lStep_render {acc : ResourceLimits} {name : String} {v : Scalar}
    (sp : List Char) (hsp : sp = [] ∨ sp = [' ']) (hname : ValidName name)
    (hv : 0 ≤ v) (hdvd : v.den ∣ 10 ^ (v.den - 1))
    (hfresh : getLList acc.limits name = none) :
    lStep acc (sp ++ renderEntryChars (name, v)) = .ok (acc.set name v) := by
  rw [lStep_eval (tokenize_rendered_token sp hsp hname)
      (valuesParse_render hv hdvd),
    if_neg (not_lt.2 hv), trim_sp_name sp hsp hname]
  rw [show (⟨name.data⟩ : String) = name from rfl, hfresh]
  rfl

/-- Processing the spaced rendered tokens of a sorted suffix extends the
accumulated quantities by exactly that suffix. -/
theorem parseTokens_q_render :
    ∀ (l : List Entry) (acc : List Entry), SortedNames (acc ++ l) →
      (∀ e ∈ l, ValidName e.1 ∧ 0 < e.2 ∧ e.2.den ∣ 10 ^ (e.2.den - 1)) →
      parseTokens qStep ⟨acc⟩ (l.map fun f => ' ' :: renderEntryChars f) =
        .ok ⟨acc ++ l⟩ := by
  intro l
  induction l with
  | nil =>
    intro acc _ _
    rw [List.map_nil, parseTokens, List.append_nil]
  | cons e l' ih =>
    intro acc hs hval
    obtain ⟨hn, hv, hdvd⟩ := hval e (List.mem_cons_self _ _)
    have hbound : ∀ x ∈ acc, x.1 < e.1 := by
      intro x hx
      exact (List.pairwise_append.1 hs).2.2 x hx e (List.mem_cons_self _ _)
    have hstep : qStep ⟨acc⟩ (' ' :: renderEntryChars e) = .ok ⟨acc ++ [e]⟩ := by
      rw [show (' ' :: renderEntryChars e) = [' '] ++ renderEntryChars (e.1, e.2)
          from by rw [Prod.mk.eta]; rfl,
        qStep_render [' '] (Or.inr rfl) hn hv hdvd,
        ResourceQuantities.add, if_neg (ne_of_gt hv)]
      show Except.ok (⟨addEntry acc e.1 e.2⟩ : ResourceQuantities) = _
      rw [addEntry_append hbound, Prod.mk.eta]
    rw [List.map_cons, parseTokens, hstep]
    show parseTokens qStep ⟨acc ++ [e]⟩ (l'.map fun f => ' ' :: renderEntryChars f)
      = .ok ⟨acc ++ e :: l'⟩
    rw [ih (acc ++ [e])
        (by rw [List.append_assoc, List.singleton_append]; exact hs)
        (fun x hx => hval x (List.mem_cons_of_mem _ hx)),
      List.append_assoc, List.singleton_append]

/-- Processing the spaced rendered tokens of a sorted suffix extends the
accumulated limits by exactly that suffix. -/
theorem parseTokens_l_render :
    ∀ (l : List Entry) (acc : List Entry), SortedNames (acc ++ l) →
      (∀ e ∈ l, ValidName e.1 ∧ 0 ≤ e.2 ∧ e.2.den ∣ 10 ^ (e.2.den - 1)) →
      parseTokens lStep ⟨acc⟩ (l.map fun f => ' ' :: renderEntryChars f) =
        .ok ⟨acc ++ l⟩ := by
  intro l
  induction l with
  | nil =>
    intro acc _ _
    rw [List.map_nil, parseTokens, List.append_nil]
  | cons e l' ih =>
    intro acc hs hval
    obtain ⟨hn, hv, hdvd⟩ := hval e (List.mem_cons_self _ _)
    have hbound : ∀ x ∈ acc, x.1 < e.1 := by
      intro x hx
      exact (List.pairwise_append.1 hs).2.2 x hx e (List.mem_cons_self _ _)
    have hstep : lStep ⟨acc⟩ (' ' :: renderEntryChars e) = .ok ⟨acc ++ [e]⟩ := by
      rw [show (' ' :: renderEntryChars e) = [' '] ++ renderEntryChars (e.1, e.2)
          from by rw [Prod.mk.eta]; rfl,
        lStep_render [' '] (Or.inr rfl) hn hv hdvd
          (getL_eq_none_of_forall_lt hbound),
        ResourceLimits.set]
      show Except.ok (⟨setEntry acc e.1 e.2⟩ : ResourceLimits) = _
      rw [setEntry_append hbound, Prod.mk.eta]
    rw [List.map_cons, parseTokens, hstep]
    show parseTokens lStep ⟨acc ++ [e]⟩ (l'.map fun f => ' ' :: renderEntryChars f)
      = .ok ⟨acc ++ e :: l'⟩
    rw [ih (acc ++ [e])
        (by rw [List.append_assoc, List.singleton_append]; exact hs)
        (fun x hx => hval x (List.mem_cons_of_mem _ hx)),
      List.append_assoc, List.singleton_append]

theorem fromString_toString_q {x : ResourceQuantities}
    (hne : x.quantities ≠ []) (hs : SortedNames x.quantities)
    (hval : ∀ e ∈ x.quantities,
      ValidName e.1 ∧ 0 < e.2 ∧ GrammarScalar e.2) :
    ResourceQuantities.fromString x.toString = .ok x := by
  obtain ⟨entries⟩ := x
  cases entries with
  | nil => exact absurd rfl hne
  | cons e l =>
    have hval' : ∀ f ∈ e :: l, ValidName f.1 ∧ 0 < f.2 ∧
        f.2.den ∣ 10 ^ (f.2.den - 1) := by
      intro f hf
      obtain ⟨h1, h2, s, h3⟩ := hval f hf
      exact ⟨h1, h2, dvd_pow_ten_pred f.2.den_pos h3⟩
    have hnosemi : ∀ f ∈ e :: l, ';' ∉ renderEntryChars f :=
      fun f hf => renderEntry_no_semi (hval' f hf).1
    rw [ResourceQuantities.toString, if_neg (by simp)]
    rw [ResourceQuantities.fromString,
      show (⟨renderEntriesChars (e :: l)⟩ : String).data =
        renderEntriesChars (e :: l) from rfl,
      renderEntries_eq_head_tail,
      tokenize_head_tail l (renderEntryChars e) (renderEntry_ne_nil e)
        (hnosemi e (List.mem_cons_self _ _))
        (fun f hf => hnosemi f (List.mem_cons_of_mem _ hf))]
    obtain ⟨hn, hv, hdvd⟩ := hval' e (List.mem_cons_self _ _)
    have hstep : qStep ⟨[]⟩ (renderEntryChars e) = .ok ⟨[e]⟩ := by
      rw [show renderEntryChars e = [] ++ renderEntryChars (e.1, e.2)
          from by rw [Prod.mk.eta]; rfl,
        qStep_render [] (Or.inl rfl) hn hv hdvd,
        ResourceQuantities.add, if_neg (ne_of_gt hv)]
      show Except.ok (⟨addEntry [] e.1 e.2⟩ : ResourceQuantities) = _
      rw [show addEntry [] e.1 e.2 = [(e.1, e.2)] from rfl, Prod.mk.eta]
    rw [parseTokens, hstep]
    show parseTokens qStep ⟨[e]⟩ (l.map fun f => ' ' :: renderEntryChars f)
      = .ok ⟨e :: l⟩
    rw [parseTokens_q_render l [e]
      (by rw [List.singleton_append]; exact hs)
      (fun f hf => hval' f (List.mem_cons_of_mem _ hf)), List.singleton_append]

theorem fromString_toString_l {x : ResourceLimits}
    (hne : x.limits ≠ []) (hs : SortedNames x.limits)
    (hval : ∀ e ∈ x.limits, ValidName e.1 ∧ 0 ≤ e.2 ∧ GrammarScalar e.2) :
    ResourceLimits.fromString x.toString = .ok x := by
  obtain ⟨entries⟩ := x
  cases entries with
  | nil => exact absurd rfl hne
  | cons e l =>
    have hval' : ∀ f ∈ e :: l, ValidName f.1 ∧ 0 ≤ f.2 ∧
        f.2.den ∣ 10 ^ (f.2.den - 1) := by
      intro f hf
      obtain ⟨h1, h2, s, h3⟩ := hval f hf
      exact ⟨h1, h2, dvd_pow_ten_pred f.2.den_pos h3⟩
    have hnosemi : ∀ f ∈ e :: l, ';' ∉ renderEntryChars f :=
      fun f hf => renderEntry_no_semi (hval' f hf).1
    rw [ResourceLimits.toString, if_neg (by simp)]
    rw [ResourceLimits.fromString,
      show (⟨renderEntriesChars (e :: l)⟩ : String).data =
        renderEntriesChars (e :: l) from rfl,
      renderEntries_eq_head_tail,
      tokenize_head_tail l (renderEntryChars e) (renderEntry_ne_nil e)
        (hnosemi e (List.mem_cons_self _ _))
        (fun f hf => hnosemi f (List.mem_cons_of_mem _ hf))]
    obtain ⟨hn, hv, hdvd⟩ := hval' e (List.mem_cons_self _ _)
    have hstep : lStep ⟨[]⟩ (renderEntryChars e) = .ok ⟨[e]⟩ := by
      rw [show renderEntryChars e = [] ++ renderEntryChars (e.1, e.2)
          from by rw [Prod.mk.eta]; rfl,
        @lStep_render ⟨[]⟩ e.1 e.2 [] (Or.inl rfl) hn hv hdvd rfl,
        ResourceLimits.set]
      show Except.ok (⟨setEntry [] e.1 e.2⟩ : ResourceLimits) = _
      rw [show setEntry [] e.1 e.2 = [(e.1, e.2)] from rfl, Prod.mk.eta]
    rw [parseTokens, hstep]
    show parseTokens lStep ⟨[e]⟩ (l.map fun f => ' ' :: renderEntryChars f)
      = .ok ⟨e :: l⟩
    rw [parseTokens_l_render l [e]
      (by rw [List.singleton_append]; exact hs)
      (fun f hf => hval' f (List.mem_cons_of_mem _ hf)), List.singleton_append]

/-! ## Claims -/

/-- C1: for every LimitSet `l` (with its sorted-entries representation
invariant) and every QuantitySet `q`, `l.contains(q)` is true exactly when no
entry `(name, v)` of `q` has a finite limit stored in `l` for `name` that is
smaller than `v`; names of `q` with no configured limit always pass. -/
theorem c1_limits_contains_quantities (l : ResourceLimits)
    (q : ResourceQuantities) (hs : SortedNames l.limits) :
    l.containsQuantities q = true ↔
      ¬∃ e ∈ q.quantities, ∃ f ∈ l.limits, f.1 = e.1 ∧ f.2 < e.2 := by
  rw [ResourceLimits.containsQuantities, List.all_eq_true]
  constructor
  · rintro hall ⟨e, he, f, hf, heq, hlt⟩
    have hmem : (e.1, f.2) ∈ l.limits := by
      rw [show (e.1, f.2) = f from Prod.ext_iff.2 ⟨heq.symm, rfl⟩]
      exact hf
    have hsome : l.get e.1 = some f.2 := (getL_eq_some_iff hs).2 hmem
    have := hall e he
    rw [hsome] at this
    simp only [Bool.not_eq_true'] at this
    exact absurd hlt (of_decide_eq_false this)
  · intro hno e he
    rcases hget : l.get e.1 with - | b
    · rfl
    · show (!decide (b < e.2)) = true
      simp only [Bool.not_eq_true']
      refine decide_eq_false ?_
      intro hlt
      exact hno ⟨e, he, (e.1, b), (getL_eq_some_iff hs).1 hget, rfl, hlt⟩

theorem c1_witness :
    ResourceLimits.containsQuantities ⟨[("cpus", 0), ("mem", 10)]⟩
      ⟨[("mem", 5)]⟩ = true ∧
    ResourceLimits.containsQuantities ⟨[("cpus", 0), ("mem", 10)]⟩
      ⟨[("cpus", 1)]⟩ = false := by
  constructor
  · exact (c1_limits_contains_quantities _ _ (by with_unfolding_all decide)).mpr
      (by with_unfolding_all decide)
  · cases hb : ResourceLimits.containsQuantities ⟨[("cpus", 0), ("mem", 10)]⟩
      ⟨[("cpus", 1)]⟩
    · rfl
    · exact absurd ((c1_limits_contains_quantities _ _ (by with_unfolding_all decide)).1 hb)
        (by with_unfolding_all decide)

/-- C2: for every pair of LimitSets with the sorted representation invariant,
`l.contains(r)` is true exactly when every finite bound of `l` is matched in
`r` by a bound that it covers: a finite bound of `l` for a name absent from
`r` (in particular any bound left over after the walk) forces `false`, a name
only in `r` is skipped, and a name in both needs `l`'s bound ≥ `r`'s. -/
theorem c2_limits_contains_limits (l r : ResourceLimits)
    (hl : SortedNames l.limits) (hr : SortedNames r.limits) :
    l.containsLimits r = true ↔
      ∀ e ∈ l.limits, ∃ f ∈ r.limits, f.1 = e.1 ∧ f.2 ≤ e.2 := by
  rw [ResourceLimits.containsLimits, containsLLlist_iff hl hr]
  constructor
  · intro hall e he
    obtain ⟨c, hc, hle⟩ := hall e he
    exact ⟨(e.1, c), hc, rfl, hle⟩
  · intro hall e he
    obtain ⟨f, hf, heq, hle⟩ := hall e he
    refine ⟨f.2, ?_, hle⟩
    rw [show (e.1, f.2) = f from Prod.ext_iff.2 ⟨heq.symm, rfl⟩]
    exact hf

theorem c2_witness :
    ResourceLimits.containsLimits ⟨[("cpus", 5)]⟩ ⟨[("cpus", 3), ("mem", 1)]⟩
      = true ∧
    ResourceLimits.containsLimits ⟨[]⟩ ⟨[("cpus", 1)]⟩ = true ∧
    ResourceLimits.containsLimits ⟨[("cpus", 5)]⟩ ⟨[]⟩ = false := by
  refine ⟨(c2_limits_contains_limits _ _ (by with_unfolding_all decide) (by with_unfolding_all decide)).mpr
    (by with_unfolding_all decide),
    (c2_limits_contains_limits _ _ (by with_unfolding_all decide) (by with_unfolding_all decide)).mpr
      (by with_unfolding_all decide), ?_⟩
  cases hb : ResourceLimits.containsLimits ⟨[("cpus", 5)]⟩ ⟨[]⟩
  · rfl
  · exact absurd ((c2_limits_contains_limits _ _ (by with_unfolding_all decide) (by with_unfolding_all decide)).1 hb)
      (by with_unfolding_all decide)

/-- C3: for every pair of QuantitySets with the sorted representation
invariant, `x.contains(y)` is true exactly when every name of `y` appears in
`x` with a value at least `y`'s; names present only in `x` play no role. -/
theorem c3_quantities_contains (x y : ResourceQuantities)
    (hx : SortedNames x.quantities) (hy : SortedNames y.quantities) :
    x.contains y = true ↔
      ∀ e ∈ y.quantities, ∃ f ∈ x.quantities, f.1 = e.1 ∧ e.2 ≤ f.2 := by
  rw [ResourceQuantities.contains, containsQQlist_iff hx hy]
  constructor
  · intro hall e he
    obtain ⟨w, hw, hle⟩ := hall e he
    exact ⟨(e.1, w), hw, rfl, hle⟩
  · intro hall e he
    obtain ⟨f, hf, heq, hle⟩ := hall e he
    refine ⟨f.2, ?_, hle⟩
    rw [show (e.1, f.2) = f from Prod.ext_iff.2 ⟨heq.symm, rfl⟩]
    exact hf

theorem c3_witness :
    ResourceQuantities.contains ⟨[("cpus", 5), ("mem", 3)]⟩ ⟨[("cpus", 5)]⟩
      = true ∧
    ResourceQuantities.contains ⟨[("cpus", 5), ("mem", 3)]⟩ ⟨[("mem", 4)]⟩
      = false := by
  refine ⟨(c3_quantities_contains _ _ (by with_unfolding_all decide) (by with_unfolding_all decide)).mpr
    (by with_unfolding_all decide), ?_⟩
  cases hb : ResourceQuantities.contains ⟨[("cpus", 5), ("mem", 3)]⟩
    ⟨[("mem", 4)]⟩
  · rfl
  · exact absurd ((c3_quantities_contains _ _ (by with_unfolding_all decide) (by with_unfolding_all decide)).1 hb)
      (by with_unfolding_all decide)

/-- C4: every operation that builds or mutates one of the two sets preserves
the representation invariant: `add`, `+`, `-` and a successful
`QuantitySet::fromString` keep the entries strictly sorted with positive
values; `set` keeps the limits strictly sorted, and a successful
`LimitSet::fromString` also keeps every stored value non-negative. -/
theorem c4_invariants :
    (∀ (rq : ResourceQuantities) (name : String) (v : Scalar),
      SortedNames rq.quantities → AllPos rq.quantities → 0 ≤ v →
      SortedNames (rq.add name v).quantities ∧ AllPos (rq.add name v).quantities) ∧
    (∀ a b : ResourceQuantities,
      SortedNames a.quantities → AllPos a.quantities →
      SortedNames b.quantities → AllPos b.quantities →
      SortedNames (a + b).quantities ∧ AllPos (a + b).quantities) ∧
    (∀ a b : ResourceQuantities,
      SortedNames a.quantities → AllPos a.quantities →
      SortedNames b.quantities →
      SortedNames (a - b).quantities ∧ AllPos (a - b).quantities) ∧
    (∀ (rl : ResourceLimits) (name : String) (v : Scalar),
      SortedNames rl.limits → SortedNames (rl.set name v).limits) ∧
    (∀ (text : String) (r : ResourceQuantities),
      ResourceQuantities.fromString text = .ok r →
      SortedNames r.quantities ∧ AllPos r.quantities) ∧
    (∀ (text : String) (r : ResourceLimits),
      ResourceLimits.fromString text = .ok r →
      SortedNames r.limits ∧ AllNonneg r.limits) := by
  refine ⟨?_, ?_, ?_, ?_, ?_, ?_⟩
  · intro rq name v hs hp hv
    rw [ResourceQuantities.add]
    split
    · exact ⟨hs, hp⟩
    · next hne =>
      have hpos : 0 < v := lt_of_le_of_ne hv (Ne.symm hne)
      exact ⟨addEntry_sorted hs, addEntry_pos hp hpos⟩
  · intro a b hsa hpa hsb hpb
    exact ⟨addQQlist_sorted hsa hsb, addQQlist_pos hpa hpb⟩
  · intro a b hsa hpa hsb
    exact ⟨subQQlist_sorted hsa hpa hsb, subQQlist_pos hsa hpa hsb⟩
  · intro rl name v hs
    exact setEntry_sorted hs
  · intro text r h
    rw [ResourceQuantities.fromString] at h
    exact parseTokensQ_invariant h List.Pairwise.nil
      fun e he => absurd he (List.not_mem_nil e)
  · intro text r h
    rw [ResourceLimits.fromString] at h
    exact parseTokensL_invariant h List.Pairwise.nil
      fun e he => absurd he (List.not_mem_nil e)

theorem c4_witness :
    SortedNames (ResourceQuantities.add ⟨[("cpus", 1)]⟩ "mem" 2).quantities ∧
    AllPos (ResourceQuantities.add ⟨[("cpus", 1)]⟩ "mem" 2).quantities :=
  c4_invariants.1 ⟨[("cpus", 1)]⟩ "mem" 2 (by with_unfolding_all decide)
    (by with_unfolding_all decide) (by with_unfolding_all decide)

/-- C5: subtraction is saturating: each entry of the left operand is removed
when its value does not exceed the matching right-hand value (zero for an
absent name, so left-only entries survive untouched and right-only names have
no effect) and is diminished in place otherwise; in particular
`{cpus:5} - {cpus:10}` is the empty set. -/
theorem c5_sub_saturating :
    (∀ a b : ResourceQuantities,
      SortedNames a.quantities → AllPos a.quantities → SortedNames b.quantities →
      (a - b).quantities = a.quantities.filterMap (subClamp b.quantities)) ∧
    (⟨[("cpus", 5)]⟩ - ⟨[("cpus", 10)]⟩ : ResourceQuantities) = ⟨[]⟩ := by
  have hgen : ∀ a b : ResourceQuantities,
      SortedNames a.quantities → AllPos a.quantities → SortedNames b.quantities →
      (a - b).quantities = a.quantities.filterMap (subClamp b.quantities) :=
    fun a b hsa hpa hsb => subQQlist_eq_filterMap hsa hpa hsb
  refine ⟨hgen, ?_⟩
  have h1 := hgen ⟨[("cpus", 5)]⟩ ⟨[("cpus", 10)]⟩ (by with_unfolding_all decide)
    (by with_unfolding_all decide) (by with_unfolding_all decide)
  have h2 : ([(("cpus" : String), (5 : Scalar))]).filterMap
      (subClamp [("cpus", 10)]) = [] := by with_unfolding_all decide
  show (⟨(ResourceQuantities.mk [("cpus", 5)] -
    ResourceQuantities.mk [("cpus", 10)]).quantities⟩ : ResourceQuantities) = ⟨[]⟩
  rw [h1, h2]

theorem c5_witness :
    (⟨[("cpus", 5), ("mem", 3)]⟩ - ⟨[("mem", 1)]⟩ : ResourceQuantities).quantities
      = List.filterMap (subClamp [("mem", 1)]) [("cpus", 5), ("mem", 3)] :=
  c5_sub_saturating.1 ⟨[("cpus", 5), ("mem", 3)]⟩ ⟨[("mem", 1)]⟩ (by with_unfolding_all decide)
    (by with_unfolding_all decide) (by with_unfolding_all decide)

/-- C6: on invariant-satisfying QuantitySets, `+` is associative and
commutative, and the empty set is a two-sided identity. -/
theorem c6_add_comm_monoid :
    (∀ a b c : ResourceQuantities,
      SortedNames a.quantities → AllPos a.quantities →
      SortedNames b.quantities → AllPos b.quantities →
      SortedNames c.quantities → AllPos c.quantities →
      (a + b) + c = a + (b + c)) ∧
    (∀ a b : ResourceQuantities,
      SortedNames a.quantities → AllPos a.quantities →
      SortedNames b.quantities → AllPos b.quantities →
      a + b = b + a) ∧
    (∀ a : ResourceQuantities, a + ⟨[]⟩ = a) ∧
    (∀ a : ResourceQuantities, (⟨[]⟩ : ResourceQuantities) + a = a) := by
  refine ⟨?_, ?_, ?_, ?_⟩
  · intro a b c hsa hpa hsb hpb hsc hpc
    have h : addQQlist (addQQlist a.quantities b.quantities) c.quantities =
        addQQlist a.quantities (addQQlist b.quantities c.quantities) := by
      refine sorted_pos_ext (addQQlist_sorted (addQQlist_sorted hsa hsb) hsc)
        (addQQlist_sorted hsa (addQQlist_sorted hsb hsc))
        (addQQlist_pos (addQQlist_pos hpa hpb) hpc)
        (addQQlist_pos hpa (addQQlist_pos hpb hpc)) ?_
      intro n
      rw [getQ_addQQ (addQQlist_sorted hsa hsb) hsc n, getQ_addQQ hsa hsb n,
        getQ_addQQ hsa (addQQlist_sorted hsb hsc) n, getQ_addQQ hsb hsc n,
        add_assoc]
    show (⟨addQQlist (addQQlist a.quantities b.quantities) c.quantities⟩ :
      ResourceQuantities) = ⟨addQQlist a.quantities
        (addQQlist b.quantities c.quantities)⟩
    rw [h]
  · intro a b hsa hpa hsb hpb
    have h : addQQlist a.quantities b.quantities =
        addQQlist b.quantities a.quantities := by
      refine sorted_pos_ext (addQQlist_sorted hsa hsb)
        (addQQlist_sorted hsb hsa) (addQQlist_pos hpa hpb)
        (addQQlist_pos hpb hpa) ?_
      intro n
      rw [getQ_addQQ hsa hsb n, getQ_addQQ hsb hsa n, add_comm]
    show (⟨addQQlist a.quantities b.quantities⟩ : ResourceQuantities) =
      ⟨addQQlist b.quantities a.quantities⟩
    rw [h]
  · intro a
    have h : addQQlist a.quantities [] = a.quantities := by simp [addQQlist]
    show (⟨addQQlist a.quantities []⟩ : ResourceQuantities) = a
    rw [h]
  · intro a
    have h : addQQlist [] a.quantities = a.quantities := by
      cases ha : a.quantities <;> simp [addQQlist]
    show (⟨addQQlist [] a.quantities⟩ : ResourceQuantities) = a
    rw [h]

theorem c6_witness :
    ((⟨[("cpus", 1)]⟩ + ⟨[("cpus", 2), ("mem", 1)]⟩ : ResourceQuantities) +
        ⟨[("disk", 3)]⟩ =
      (⟨[("cpus", 1)]⟩ : ResourceQuantities) +
        (⟨[("cpus", 2), ("mem", 1)]⟩ + ⟨[("disk", 3)]⟩)) ∧
    ((⟨[("cpus", 1)]⟩ : ResourceQuantities) + ⟨[("cpus", 2), ("mem", 1)]⟩ =
      (⟨[("cpus", 2), ("mem", 1)]⟩ : ResourceQuantities) + ⟨[("cpus", 1)]⟩) ∧
    ((⟨[("cpus", 1)]⟩ : ResourceQuantities) + ⟨[]⟩ = ⟨[("cpus", 1)]⟩) :=
  ⟨c6_add_comm_monoid.1 _ _ _ (by with_unfolding_all decide)
      (by with_unfolding_all decide) (by with_unfolding_all decide)
      (by with_unfolding_all decide) (by with_unfolding_all decide)
      (by with_unfolding_all decide),
    c6_add_comm_monoid.2.1 _ _ (by with_unfolding_all decide)
      (by with_unfolding_all decide) (by with_unfolding_all decide)
      (by with_unfolding_all decide),
    c6_add_comm_monoid.2.2.1 _⟩

set_option maxRecDepth 8192 in
/-- C7: a token whose value parses to zero is silently dropped by the
QuantitySet step but stored by the LimitSet step (subject to its duplicate
check), and a repeated name is a hard error only for LimitSet parsing while
QuantitySet parsing sums the values: `"cpus:10;cpus:5"` parses as the
QuantitySet `{cpus:15}` and fails as a LimitSet with a duplicate-name
error. -/
theorem c7_zero_and_duplicate_policy :
    (∀ (acc : ResourceQuantities) (token name valueStr : List Char),
      tokenizeChars ':' token = [name, valueStr] →
      valuesParse valueStr = .ok 0 → qStep acc token = .ok acc) ∧
    (∀ (acc : ResourceLimits) (token name valueStr : List Char),
      tokenizeChars ':' token = [name, valueStr] →
      valuesParse valueStr = .ok 0 →
      lStep acc token =
        if (getLList acc.limits ⟨trimChars name⟩).isSome then
          .error (.duplicateName ⟨valueStr⟩)
        else .ok (acc.set ⟨trimChars name⟩ 0)) ∧
    ResourceQuantities.fromString "cpus:10;cpus:5" = .ok ⟨[("cpus", 15)]⟩ ∧
    ResourceLimits.fromString "cpus:10;cpus:5" =
      .error (.duplicateName "5") ∧
    ResourceQuantities.fromString "cpus:0;mem:5" = .ok ⟨[("mem", 5)]⟩ ∧
    ResourceLimits.fromString "cpus:0;mem:5" =
      .ok ⟨[("cpus", 0), ("mem", 5)]⟩ := by
  refine ⟨?_, ?_, ?_, ?_, ?_, ?_⟩
  · intro acc token name valueStr htok hval
    rw [qStep_eval htok hval, if_neg (lt_irrefl (0 : Scalar)),
      if_neg (lt_irrefl (0 : Scalar))]
  · intro acc token name valueStr htok hval
    rw [lStep_eval htok hval, if_neg (lt_irrefl (0 : Scalar))]
  · with_unfolding_all decide
  · with_unfolding_all decide
  · with_unfolding_all decide
  · with_unfolding_all decide

theorem c7_witness :
    qStep ⟨[("mem", 5)]⟩ ("cpus:0").data = .ok ⟨[("mem", 5)]⟩ ∧
    lStep ⟨[("mem", 5)]⟩ ("cpus:0").data =
      .ok (ResourceLimits.set ⟨[("mem", 5)]⟩ "cpus" 0) :=
  ⟨c7_zero_and_duplicate_policy.1 ⟨[("mem", 5)]⟩ ("cpus:0").data
      ("cpus").data ("0").data (by with_unfolding_all decide)
      (by with_unfolding_all decide),
    by
      rw [c7_zero_and_duplicate_policy.2.1 ⟨[("mem", 5)]⟩ ("cpus:0").data
        ("cpus").data ("0").data (by with_unfolding_all decide)
        (by with_unfolding_all decide)]
      with_unfolding_all decide⟩

/-- C8 counterexample: a token with two adjacent colons is not rejected: the
tokenizer drops the empty middle segment, so `"a::1"` parses like `"a:1"` for
both set kinds, contradicting the claim that such tokens fail. -/
theorem c8_counterexample :
    ResourceQuantities.fromString "a::1" = .ok ⟨[("a", 1)]⟩ ∧
    ResourceLimits.fromString "a::1" = .ok ⟨[("a", 1)]⟩ := by
  constructor
  · with_unfolding_all decide
  · with_unfolding_all decide

/-- C8 (amended): a non-empty semicolon token whose colon tokenization — which
drops empty segments — does not produce exactly two parts makes both parses
fail, and when every earlier token stepped through successfully the error is
the malformed-token error naming that token. -/
theorem c8_malformed_tokens (text : String) :
    ((∃ t ∈ tokenizeChars ';' text.data, (tokenizeChars ':' t).length ≠ 2) →
      (∃ e, ResourceQuantities.fromString text = .error e) ∧
      (∃ e, ResourceLimits.fromString text = .error e)) ∧
    (∀ pre t post, tokenizeChars ';' text.data = pre ++ t :: post →
      (tokenizeChars ':' t).length ≠ 2 →
      (∀ mid : ResourceQuantities, parseTokens qStep ⟨[]⟩ pre = .ok mid →
        ResourceQuantities.fromString text = .error (.malformedToken ⟨t⟩)) ∧
      (∀ mid : ResourceLimits, parseTokens lStep ⟨[]⟩ pre = .ok mid →
        ResourceLimits.fromString text = .error (.malformedToken ⟨t⟩))) := by
  constructor
  · rintro ⟨t, ht, hbad⟩
    constructor
    · rw [ResourceQuantities.fromString]
      exact parseTokens_error_of_bad
        ⟨t, ht, fun a => ⟨.malformedToken ⟨t⟩, qStep_malformed hbad⟩⟩
    · rw [ResourceLimits.fromString]
      exact parseTokens_error_of_bad
        ⟨t, ht, fun a => ⟨.malformedToken ⟨t⟩, lStep_malformed hbad⟩⟩
  · intro pre t post htoks hbad
    constructor
    · intro mid hmid
      rw [ResourceQuantities.fromString, htoks, parseTokens_append hmid,
        parseTokens_error_stop (qStep_malformed hbad)]
    · intro mid hmid
      rw [ResourceLimits.fromString, htoks, parseTokens_append hmid,
        parseTokens_error_stop (lStep_malformed hbad)]

theorem c8_witness :
    ResourceQuantities.fromString "x:1;bad;y:2" =
      .error (.malformedToken "bad") :=
  ((c8_malformed_tokens "x:1;bad;y:2").2 [("x:1").data] ("bad").data
    [("y:2").data] (by with_unfolding_all decide)
    (by with_unfolding_all decide)).1 ⟨[("x", 1)]⟩
    (by with_unfolding_all decide)

/-- C9 counterexample: the empty set renders as braces, and that text does not
parse back: the round trip fails on the empty set for both set kinds. -/
theorem c9_counterexample :
    ResourceQuantities.toString ⟨[]⟩ = "\x7b\x7d" ∧
    ResourceQuantities.fromString (ResourceQuantities.toString ⟨[]⟩) =
      .error (.malformedToken "\x7b\x7d") ∧
    ResourceQuantities.fromString (ResourceQuantities.toString ⟨[]⟩) ≠
      .ok ⟨[]⟩ ∧
    ResourceLimits.fromString (ResourceLimits.toString ⟨[]⟩) ≠ .ok ⟨[]⟩ := by
  refine ⟨rfl, ?_, ?_, ?_⟩
  · with_unfolding_all decide
  · with_unfolding_all decide
  · with_unfolding_all decide

/-- C9 (amended): for every non-empty QuantitySet or LimitSet whose entries
are valid — sorted names as produced by parsing (trimmed, non-empty, free of
the separators), values positive (QuantitySet) or non-negative (LimitSet) and
denoted by the decimal grammar — parsing the rendered text gives the set
back; the empty set is excluded since its rendering is the brace text. -/
theorem c9_round_trip :
    (∀ x : ResourceQuantities, x.quantities ≠ [] → SortedNames x.quantities →
      (∀ e ∈ x.quantities, ValidName e.1 ∧ 0 < e.2 ∧ GrammarScalar e.2) →
      ResourceQuantities.fromString x.toString = .ok x) ∧
    (∀ x : ResourceLimits, x.limits ≠ [] → SortedNames x.limits →
      (∀ e ∈ x.limits, ValidName e.1 ∧ 0 ≤ e.2 ∧ GrammarScalar e.2) →
      ResourceLimits.fromString x.toString = .ok x) :=
  ⟨fun _ h1 h2 h3 => fromString_toString_q h1 h2 h3,
    fun _ h1 h2 h3 => fromString_toString_l h1 h2 h3⟩

theorem c9_witness :
    ResourceQuantities.fromString
        (ResourceQuantities.toString ⟨[("cpus", 10), ("mem", 1024)]⟩) =
      .ok ⟨[("cpus", 10), ("mem", 1024)]⟩ :=
  c9_round_trip.1 ⟨[("cpus", 10), ("mem", 1024)]⟩
    (by with_unfolding_all decide) (by with_unfolding_all decide)
    (by
      intro e he
      rcases List.mem_cons.1 he with rfl | he'
      · exact ⟨⟨by decide, by decide, by decide⟩,
          by with_unfolding_all decide, 0, by with_unfolding_all decide⟩
      · rcases List.mem_cons.1 he' with rfl | he''
        · exact ⟨⟨by decide, by decide, by decide⟩,
            by with_unfolding_all decide, 0, by with_unfolding_all decide⟩
        · exact absurd he'' (List.not_mem_nil _))

/-- C10: an input whose semicolon tokenization yields no non-empty tokens —
the empty string, or separator-only strings such as two semicolons — parses
successfully to the empty set for both set kinds. -/
theorem c10_empty_tokens (text : String)
    (h : tokenizeChars ';' text.data = []) :
    ResourceQuantities.fromString text = .ok ⟨[]⟩ ∧
    ResourceLimits.fromString text = .ok ⟨[]⟩ := by
  rw [ResourceQuantities.fromString, ResourceLimits.fromString, h]
  exact ⟨rfl, rfl⟩

theorem c10_witness :
    ResourceQuantities.fromString ";;" = .ok ⟨[]⟩ ∧
    ResourceLimits.fromString "" = .ok ⟨[]⟩ :=
  ⟨(c10_empty_tokens ";;" (by with_unfolding_all decide)).1,
    (c10_empty_tokens "" (by with_unfolding_all decide)).2⟩

end Mesos
